import Mathlib

set_option maxHeartbeats 1000000

/-!
Shallow embedding of the wordreorder tool (src/wordreorder.py).

The document library (python-docx) is an opaque collaborator: it supplies an
ordered sequence of body elements.  We model an element by the three facts the
tool ever inspects about it: whether its XML tag marks a paragraph, the style
name of the matching paragraph object (if any), and the paragraph text.
Deep-copying an element into the output document preserves the element value,
so emission is modelled as concatenating the element lists of the scheduled
sections.  Console printing is modelled only where a claim mentions it (the
duplicate-heading reports, kept as a list of reported heading texts).

Python string primitives (`str.strip`, `str.lower`, `str.startswith`,
`str.split(" ")`, `int(...)`) are embedded as executable functions over the
character list of a `String`; the ASCII fragment is modelled (style names and
headings in scope are ASCII), so `lower` maps `A..Z` to `a..z` and `strip`
removes the six ASCII whitespace characters Python strips.
-/

/-- The characters removed by Python `str.strip()` (ASCII fragment). -/
def pyWhitespace (c : Char) : Bool :=
  c = ' ' || c = '\t' || c = '\n' || c = '\x0d' || c = '\x0b' || c = '\x0c'

/-- Python `str.lower` on one ASCII character. -/
def pyLowerChar (c : Char) : Char :=
  if 'A' ≤ c ∧ c ≤ 'Z' then Char.ofNat (c.toNat + 32) else c

/-- Drop Python whitespace from the end of a character list. -/
def dropTrailingWs (l : List Char) : List Char :=
  (l.reverse.dropWhile pyWhitespace).reverse

/-- Python `str.strip()` (ASCII fragment). -/
def pyStrip (s : String) : String :=
  String.mk (dropTrailingWs (s.data.dropWhile pyWhitespace))

/-- Python `str.lower()` (ASCII fragment). -/
def pyLower (s : String) : String :=
  String.mk (s.data.map pyLowerChar)

/-- Python `str.startswith(pre)`. -/
def pyStartsWith (s pre : String) : Bool :=
  pre.data.isPrefixOf s.data

/-- Python `str.split(" ")` on a character list: split at every single space,
keeping empty tokens. -/
def splitSpaceList : List Char → List (List Char)
  | [] => [[]]
  | c :: cs =>
    if c = ' ' then [] :: splitSpaceList cs
    else
      match splitSpaceList cs with
      | t :: ts => (c :: t) :: ts
      | [] => [[c]]

/-- Python `str.split(" ")`. -/
def pySplitSpace (s : String) : List String :=
  (splitSpaceList s.data).map String.mk

/-- A body element of the source document.  `isPara` models
`element.tag.endswith('}p')` together with a successful identity lookup in
`document.paragraphs`; `style` is `paragraph.style.name` (`none` when the
paragraph or its style is missing or the name is `None`), `text` is
`paragraph.text`. -/
structure Elem where
  isPara : Bool
  style : Option String
  text : String
deriving DecidableEq

/-- Digit tail of CPython `int(str)` parsing (ASCII fragment): after the first
digit, digits may continue, with single underscores allowed between digits. -/
def pyDigitsCore : List Char → Nat → Option Nat
  | [], acc => some acc
  | c :: cs, acc =>
    if c.isDigit then pyDigitsCore cs (acc * 10 + (c.toNat - 48))
    else if c = '_' then
      match cs with
      | d :: cs2 => if d.isDigit then pyDigitsCore cs2 (acc * 10 + (d.toNat - 48)) else none
      | [] => none
    else none

/-- Unsigned part of CPython `int(str)`: at least one digit, no leading
underscore. -/
def pyIntNat : List Char → Option Nat
  | [] => none
  | c :: cs => if c.isDigit then pyDigitsCore cs (c.toNat - 48) else none

/-- CPython `int(str)` on the tokens produced by `str.split(" ")` (ASCII
fragment): surrounding whitespace stripped, optional sign, digits with
single underscores between digits; `none` models a raised `ValueError`. -/
def pyInt (s : String) : Option Int :=
  match dropTrailingWs (s.data.dropWhile pyWhitespace) with
  | '+' :: rest => (pyIntNat rest).map Int.ofNat
  | '-' :: rest => (pyIntNat rest).map (fun n => -(n : Int))
  | rest => (pyIntNat rest).map Int.ofNat

/-- `is_heading_style(paragraph, max_level)` from the source.  The paragraph is
given by its style name (`none` when absent, mirroring the falsiness test on
`paragraph.style`/`paragraph.style.name`; the empty string is likewise falsy)
and its text.  Returns `some (level, text)` exactly when the source returns a
non-`None` pair: the stripped, lowercased style name starts with `"heading "`,
and `int(style_name.split(" ")[-1])` succeeds with `1 <= level <= max_level`. -/
def is_heading_style (style : Option String) (text : String) (max_level : Nat) :
    Option (Nat × String) :=
  match style with
  | none => none
  | some style_name =>
    if style_name = "" then none
    else if pyStartsWith (pyLower (pyStrip style_name)) "heading " then
      match pyInt ((pySplitSpace style_name).getLastD "") with
      | some level =>
        if 1 ≤ level ∧ level ≤ (max_level : Int) then some (level.toNat, text) else none
      | none => none
    else none

theorem is_heading_style_level_pos {s : Option String} {t : String} {L lv : Nat} {txt : String}
    (h : is_heading_style s t L = some (lv, txt)) : 1 ≤ lv := by
  unfold is_heading_style at h
  match s with
  | none => simp at h
  | some sn =>
    simp only at h
    split at h
    · simp at h
    · split at h
      · split at h
        · rename_i n hn
          split at h
          · rename_i hr
            simp only [Option.some.injEq, Prod.mk.injEq] at h
            obtain ⟨h1, _⟩ := h
            subst h1
            omega
          · simp at h
        · simp at h
      · simp at h

/-- C9: a paragraph (with a present style name) is classified as a heading iff
the stripped, lowercased style name starts with `"heading "` and the trailing
space-separated token of the raw style name parses as an integer `n` with
`1 ≤ n ≤ max_level`; the classified level is then `n` itself. -/
theorem C9_heading_iff (s t : String) (L : Nat) :
    (∃ lv txt, is_heading_style (some s) t L = some (lv, txt)) ↔
      (pyStartsWith (pyLower (pyStrip s)) "heading " = true ∧
        ∃ n : Int, pyInt ((pySplitSpace s).getLastD "") = some n ∧ 1 ≤ n ∧ n ≤ (L : Int)) := by
  unfold is_heading_style
  by_cases hs : s = ""
  · subst hs
    constructor
    · intro ⟨lv, txt, h⟩
      simp at h
    · intro ⟨hpre, _⟩
      exact absurd hpre (by decide)
  · simp only [if_neg hs]
    by_cases hpre : pyStartsWith (pyLower (pyStrip s)) "heading " = true
    · simp only [if_pos hpre]
      cases hint : pyInt ((pySplitSpace s).getLastD "") with
      | none =>
        simp only
        constructor
        · intro ⟨lv, txt, h⟩
          simp at h
        · intro ⟨_, n, hn, _⟩
          exact absurd hn (by simp)
      | some m =>
        simp only
        constructor
        · intro ⟨lv, txt, h⟩
          split at h
          · rename_i hr
            exact ⟨hpre, m, rfl, hr.1, hr.2⟩
          · simp at h
        · intro ⟨_, n, hn, h1, h2⟩
          injection hn with hn
          subst hn
          exact ⟨m.toNat, t, by rw [if_pos ⟨h1, h2⟩]⟩
    · simp only [if_neg hpre]
      constructor
      · intro ⟨lv, txt, h⟩
        simp at h
      · intro ⟨h, _⟩
        exact absurd h hpre

/-! ## Structure extractor: `parse_document_structure` -/

/-- A section as built by `parse_document_structure`: trimmed heading text,
level (`0` for the preamble), and the captured element list (`none` when
`include_elements` is false, mirroring the `None` buffer). -/
structure Sec where
  text : String
  level : Nat
  elements : Option (List Elem)
deriving DecidableEq

/-- The mutable scan state of `parse_document_structure`: finished sections,
`current_heading_info` (`curText`, `curLevel`) and the current element buffer
`current_section_elements`. -/
structure PState where
  sections : List Sec
  curText : String
  curLevel : Nat
  curElems : Option (List Elem)
deriving DecidableEq

/-- The close-out guard
`current_heading_info['level'] > 0 or (current_section_elements is not None
and current_section_elements)`. -/
def closesOut (st : PState) : Bool :=
  decide (0 < st.curLevel) ||
    (match st.curElems with
     | some (_ :: _) => true
     | _ => false)

/-- The section appended on close-out: the accumulator text is stripped at
this point (`current_heading_info['text'].strip()`). -/
def finishSec (st : PState) : Sec :=
  ⟨pyStrip st.curText, st.curLevel, st.curElems⟩

/-- `if include_elements and current_section_elements is not None:
current_section_elements.append(element)`. -/
def addContent (inc : Bool) (st : PState) (e : Elem) : PState :=
  if inc then
    match st.curElems with
    | some l => { st with curElems := some (l ++ [e]) }
    | none => st
  else st

/-- One iteration of the element scan. -/
def parseStep (L : Nat) (inc : Bool) (st : PState) (e : Elem) : PState :=
  if e.isPara then
    match is_heading_style e.style e.text L with
    | some (lvl, txt) =>
      { sections := if closesOut st then st.sections ++ [finishSec st] else st.sections
        curText := txt
        curLevel := lvl
        curElems := if inc then some [e] else none }
    | none => addContent inc st e
  else addContent inc st e

/-- The whole element scan from a given state. -/
def parseFold (L : Nat) (inc : Bool) (st : PState) (doc : List Elem) : PState :=
  doc.foldl (parseStep L inc) st

/-- The initial accumulator: `{'text': '__PREAMBLE__', 'level': 0}` with an
empty (or absent) buffer. -/
def initPState (inc : Bool) : PState :=
  ⟨[], "__PREAMBLE__", 0, if inc then some [] else none⟩

/-- The final close-out after the scan. -/
def parseClose (st : PState) : List Sec :=
  if closesOut st then st.sections ++ [finishSec st] else st.sections

/-- The trailing fix-up: in element-capturing mode, drop a leading
`__PREAMBLE__` section whose element list is empty/absent
(`if include_elements and sections and sections[0]['text'] == '__PREAMBLE__'
and not sections[0]['elements']: sections.pop(0)`). -/
def dropEmptyPreamble (inc : Bool) (secs : List Sec) : List Sec :=
  match inc, secs with
  | true, s :: rest =>
    if s.text = "__PREAMBLE__" ∧ (s.elements = some [] ∨ s.elements = none) then rest
    else s :: rest
  | _, _ => secs

/-- `parse_document_structure(doc_path, max_level, include_elements)`, given
the document's body element sequence (the I/O around opening the document is
out of scope: a document that fails to open yields no section list at all). -/
def parse_document_structure (L : Nat) (inc : Bool) (doc : List Elem) : List Sec :=
  dropEmptyPreamble inc (parseClose (parseFold L inc (initPState inc) doc))

/-! ## Reorganize: section map, policies and the writing plan -/

/-- First-match association lookup, modelling Python dict indexing (the maps
built below never hold a key twice). -/
def lookupSec : List (String × Sec) → String → Option Sec
  | [], _ => none
  | (k, v) :: rest, t => if k = t then some v else lookupSec rest t

/-- The state of the section-map loop of `run_reorganize`:
`source_sections_map` (insertion order kept), `headings_seen`,
`duplicate_headings` (one entry per reported duplicate text, in report
order) and `preamble_section`. -/
structure MapState where
  map : List (String × Sec)
  seen : List String
  dups : List String
  preamble : Option Sec
deriving DecidableEq

def initMapState : MapState := ⟨[], [], [], none⟩

/-- One iteration of the section-map loop. -/
def buildMapStep (st : MapState) (s : Sec) : MapState :=
  if s.text = "__PREAMBLE__" then { st with preamble := some s }
  else if s.text ∈ st.seen ∧ s.text ∉ st.dups then
    { st with dups := st.dups ++ [s.text] }
  else if s.text ∉ st.seen then
    { st with map := st.map ++ [(s.text, s)], seen := st.seen ++ [s.text] }
  else st

/-- The section-map loop over the extracted sections. -/
def mapFold (secs : List Sec) : MapState :=
  secs.foldl buildMapStep initMapState

def sourceMap (secs : List Sec) : List (String × Sec) := (mapFold secs).map

def sourceDups (secs : List Sec) : List String := (mapFold secs).dups

def sourcePreamble (secs : List Sec) : Option Sec := (mapFold secs).preamble

def mapKeys (secs : List Sec) : List String := (sourceMap secs).map (fun kv => kv.1)

inductive UnmatchedPolicy where
  | append
  | delete
  | warn
deriving DecidableEq

inductive MissingPolicy where
  | error
  | warn
  | ignore
deriving DecidableEq

/-- `missing_in_source`: the target headings (kept in target order, repeats
included) whose literal text is not a key of the section map. -/
def missingOf (secs : List Sec) (target : List String) : List String :=
  target.filter (fun t => t ∉ mapKeys secs)

/-- The preamble part of the plan:
`if preamble_section and preamble_section.get('elements')`. -/
def preambleOut (secs : List Sec) : List Sec :=
  match sourcePreamble secs with
  | some p =>
    match p.elements with
    | some (_ :: _) => [p]
    | _ => []
  | none => []

/-- The TOC-matched part of the plan: the loop over `target_toc_headings`
with the `processed_target_headings` guard. -/
def planMatched (m : List (String × Sec)) : List String → List String → List Sec
  | [], _ => []
  | t :: ts, processed =>
    match lookupSec m t with
    | some s =>
      if t ∈ processed then planMatched m ts processed
      else s :: planMatched m ts (t :: processed)
    | none => planMatched m ts processed

/-- The unmatched sections scheduled for appending.  `unmatched_in_source_-
headings` is a Python set (`found_source_headings - target_toc_set`), whose
iteration order the language does not fix; the embedding therefore takes the
iteration order as an explicit enumeration (see `validEnum`).  Under the
`delete` policy nothing is appended. -/
def appendixOut (secs : List Sec) (enum : List String) (up : UnmatchedPolicy) : List Sec :=
  if up = UnmatchedPolicy.delete then []
  else enum.filterMap (fun h => lookupSec (sourceMap secs) h)

/-- A list is a possible iteration order of the set
`found_source_headings - target_toc_set` iff it repeats nothing and holds
exactly the map keys that are absent from the target list. -/
def validEnum (secs : List Sec) (target enum : List String) : Prop :=
  enum.Nodup ∧ ∀ h, h ∈ enum ↔ (h ∈ mapKeys secs ∧ h ∉ target)

/-- The planning stage of `run_reorganize`: `None` models the abort
(`return False`) under the `error` missing policy, which happens before any
output document is created; otherwise the ordered `sections_to_write`. -/
def run_reorganize_plan (target : List String) (secs : List Sec)
    (mp : MissingPolicy) (up : UnmatchedPolicy) (enum : List String) :
    Option (List Sec) :=
  if mp = MissingPolicy.error ∧ missingOf secs target ≠ [] then none
  else
    some (preambleOut secs ++ planMatched (sourceMap secs) target [] ++
      appendixOut secs enum up)

/-- The emitter: each scheduled section's elements are deep-copied in order
into the new document's body (sections whose element list is empty or absent
are skipped, which appends nothing either way). -/
def emitElements (plan : List Sec) : List Elem :=
  plan.flatMap (fun s =>
    match s.elements with
    | some l => l
    | none => [])

/-- The element sequence of the output document of `run_reorganize`. -/
def run_reorganize_out (target : List String) (secs : List Sec)
    (mp : MissingPolicy) (up : UnmatchedPolicy) (enum : List String) :
    Option (List Elem) :=
  (run_reorganize_plan target secs mp up enum).map emitElements

/-! ## Properties of the section-map loop -/

theorem lookupSec_eq_none_iff (m : List (String × Sec)) (t : String) :
    lookupSec m t = none ↔ t ∉ m.map (fun kv => kv.1) := by
  induction m with
  | nil => simp [lookupSec]
  | cons kv rest ih =>
    obtain ⟨k, v⟩ := kv
    by_cases h : k = t
    · simp [lookupSec, h]
    · simp [lookupSec, h, ih]
      intro hmem
      exact fun heq => h heq.symm

theorem lookupSec_isSome_iff (m : List (String × Sec)) (t : String) :
    (lookupSec m t).isSome = true ↔ t ∈ m.map (fun kv => kv.1) := by
  rw [← not_iff_not, ← lookupSec_eq_none_iff]
  cases lookupSec m t <;> simp

theorem lookupSec_mem {m : List (String × Sec)} {t : String} {s : Sec}
    (h : lookupSec m t = some s) : (t, s) ∈ m := by
  induction m with
  | nil => simp [lookupSec] at h
  | cons kv rest ih =>
    obtain ⟨k, v⟩ := kv
    by_cases hk : k = t
    · simp only [lookupSec, if_pos hk] at h
      injection h with h
      subst hk h
      exact List.mem_cons_self _ _
    · simp only [lookupSec, if_neg hk] at h
      exact List.mem_cons_of_mem _ (ih h)

theorem lookupSec_concat_of_ne {m : List (String × Sec)} {k t : String} (v : Sec)
    (h : k ≠ t) : lookupSec (m ++ [(k, v)]) t = lookupSec m t := by
  induction m with
  | nil => simp [lookupSec, h]
  | cons kv rest ih =>
    obtain ⟨k2, v2⟩ := kv
    by_cases h2 : k2 = t <;> simp [lookupSec, h2, ih]

theorem lookupSec_concat_of_none {m : List (String × Sec)} {k t : String} (v : Sec)
    (hm : lookupSec m t = none) :
    lookupSec (m ++ [(k, v)]) t = if k = t then some v else none := by
  induction m with
  | nil => rfl
  | cons kv rest ih =>
    obtain ⟨k2, v2⟩ := kv
    by_cases h2 : k2 = t
    · simp [lookupSec, h2] at hm
    · simp only [List.cons_append, lookupSec, if_neg h2] at hm ⊢
      exact ih hm

theorem find?_text_singleton (s : Sec) (t : String) :
    List.find? (fun s2 => s2.text == t) [s] = if s.text = t then some s else none := by
  by_cases h : s.text = t
  · simp [List.find?, h]
  · have hb : (s.text == t) = false := beq_eq_false_iff_ne.mpr h
    simp [List.find?, hb, h]

theorem filter_text_singleton (s : Sec) (t : String) :
    List.filter (fun s2 => s2.text == t) [s] = if s.text = t then [s] else [] := by
  by_cases h : s.text = t
  · simp [List.filter, h]
  · have hb : (s.text == t) = false := beq_eq_false_iff_ne.mpr h
    simp [List.filter, hb, h]

theorem find?_text_concat_of_ne {p : List Sec} {s : Sec} {t : String} (h : s.text ≠ t) :
    List.find? (fun s2 => s2.text == t) (p ++ [s]) = List.find? (fun s2 => s2.text == t) p := by
  rw [List.find?_append, find?_text_singleton, if_neg h]
  cases List.find? (fun s2 => s2.text == t) p <;> rfl

theorem find?_text_concat_of_found {p : List Sec} {s : Sec} {t : String}
    (h : (List.find? (fun s2 => s2.text == t) p).isSome = true) :
    List.find? (fun s2 => s2.text == t) (p ++ [s]) = List.find? (fun s2 => s2.text == t) p := by
  rcases hf : List.find? (fun s2 => s2.text == t) p with _ | v
  · rw [hf] at h
    simp at h
  · rw [List.find?_append, hf]
    rfl

theorem find?_text_concat_self {p : List Sec} {s : Sec} {t : String}
    (hnone : List.find? (fun s2 => s2.text == t) p = none) (h : s.text = t) :
    List.find? (fun s2 => s2.text == t) (p ++ [s]) = some s := by
  rw [List.find?_append, hnone, find?_text_singleton, if_pos h]
  rfl

theorem find?_text_isSome {p : List Sec} {t : String} (h : ∃ s2 ∈ p, s2.text = t) :
    (List.find? (fun s2 => s2.text == t) p).isSome = true := by
  obtain ⟨s2, hs2, hts⟩ := h
  rcases hf : List.find? (fun s2 => s2.text == t) p with _ | v
  · rw [List.find?_eq_none] at hf
    exact absurd (by simp [hts]) (hf s2 hs2)
  · rw [hf]
    rfl

theorem length_filter_text_concat (p : List Sec) (s : Sec) (t : String) :
    (List.filter (fun s2 => s2.text == t) (p ++ [s])).length =
      (List.filter (fun s2 => s2.text == t) p).length + (if s.text = t then 1 else 0) := by
  rw [List.filter_append, List.length_append, filter_text_singleton]
  by_cases h : s.text = t <;> simp [h]

theorem exists_text_concat (p : List Sec) (s : Sec) (t : String) :
    (∃ s2 ∈ p ++ [s], s2.text = t) ↔ (∃ s2 ∈ p, s2.text = t) ∨ s.text = t := by
  constructor
  · rintro ⟨s2, hs2, hts⟩
    rcases List.mem_append.mp hs2 with h | h
    · exact Or.inl ⟨s2, h, hts⟩
    · simp at h
      subst h
      exact Or.inr hts
  · rintro (⟨s2, h, hts⟩ | hts)
    · exact ⟨s2, List.mem_append_left _ h, hts⟩
    · exact ⟨s, List.mem_append_right _ (by simp), hts⟩

theorem one_le_length_filter_text {p : List Sec} {t : String}
    (h : ∃ s2 ∈ p, s2.text = t) :
    1 ≤ (List.filter (fun s2 => s2.text == t) p).length := by
  obtain ⟨s2, hs2, hts⟩ := h
  exact List.length_pos_of_mem (List.mem_filter.mpr ⟨hs2, by simp [hts]⟩)

/-- The loop invariant of the section-map loop, relating the state to the
prefix `p` of sections already processed: the map holds the first occurrence
of each non-preamble heading text, `duplicate_headings` holds (once each)
exactly the texts seen at least twice, and `preamble_section` is the last
`__PREAMBLE__` section so far. -/
def MapInv (p : List Sec) (st : MapState) : Prop :=
  (∀ t, t ≠ "__PREAMBLE__" → lookupSec st.map t = p.find? (fun s => s.text == t)) ∧
  (∀ t, t ∈ st.seen ↔ (t ≠ "__PREAMBLE__" ∧ ∃ s ∈ p, s.text = t)) ∧
  (∀ t, t ∈ st.dups ↔ (t ≠ "__PREAMBLE__" ∧ 2 ≤ (p.filter (fun s => s.text == t)).length)) ∧
  st.dups.Nodup ∧
  st.preamble = (p.filter (fun s => s.text == "__PREAMBLE__")).getLast? ∧
  (∀ kv ∈ st.map, kv.2.text = kv.1 ∧ kv.1 ≠ "__PREAMBLE__")

theorem mapInv_init : MapInv [] initMapState := by
  refine ⟨?_, ?_, ?_, ?_, ?_, ?_⟩ <;> simp [initMapState, lookupSec]

theorem mapInv_step {p : List Sec} {st : MapState} (s : Sec) (h : MapInv p st) :
    MapInv (p ++ [s]) (buildMapStep st s) := by
  obtain ⟨hmap, hseen, hdups, hnd, hpre, hkv⟩ := h
  by_cases hmk : s.text = "__PREAMBLE__"
  · -- preamble branch: only `preamble_section` changes
    unfold buildMapStep
    rw [if_pos hmk]
    refine ⟨?_, ?_, ?_, hnd, ?_, hkv⟩
    · intro t ht
      have hst : s.text ≠ t := by
        intro hc
        exact ht (by rw [← hc]; exact hmk)
      rw [hmap t ht, find?_text_concat_of_ne hst]
    · intro t
      rw [hseen t]
      constructor
      · rintro ⟨ht, hx⟩
        exact ⟨ht, (exists_text_concat p s t).mpr (Or.inl hx)⟩
      · rintro ⟨ht, hx⟩
        rcases (exists_text_concat p s t).mp hx with h2 | h2
        · exact ⟨ht, h2⟩
        · exact absurd (by rw [← h2]; exact hmk) ht
    · intro t
      rw [hdups t, length_filter_text_concat]
      constructor
      · rintro ⟨ht, hc⟩
        exact ⟨ht, by omega⟩
      · rintro ⟨ht, hc⟩
        refine ⟨ht, ?_⟩
        have h0 : (if s.text = t then 1 else 0) = 0 := by
          rw [if_neg]
          intro hc2
          exact ht (by rw [← hc2]; exact hmk)
        omega
    · rw [List.filter_append, filter_text_singleton, if_pos hmk, List.getLast?_concat]
  · unfold buildMapStep
    rw [if_neg hmk]
    by_cases hsn : s.text ∈ st.seen ∧ s.text ∉ st.dups
    · -- second occurrence: report the duplicate, keep the first mapping
      rw [if_pos hsn]
      obtain ⟨hin, hnotd⟩ := hsn
      have hex : ∃ s2 ∈ p, s2.text = s.text := ((hseen s.text).mp hin).2
      refine ⟨?_, ?_, ?_, ?_, ?_, hkv⟩
      · intro t ht
        by_cases hst : s.text = t
        · subst hst
          rw [hmap s.text ht, find?_text_concat_of_found (find?_text_isSome hex)]
        · rw [hmap t ht, find?_text_concat_of_ne hst]
      · intro t
        rw [hseen t]
        constructor
        · rintro ⟨ht, hx⟩
          exact ⟨ht, (exists_text_concat p s t).mpr (Or.inl hx)⟩
        · rintro ⟨ht, hx⟩
          rcases (exists_text_concat p s t).mp hx with h2 | h2
          · exact ⟨ht, h2⟩
          · refine ⟨ht, ?_⟩
            rw [← h2]
            exact hex
      · intro t
        constructor
        · intro hmem
          rcases List.mem_append.mp hmem with h2 | h2
          · obtain ⟨ht, hc⟩ := (hdups t).mp h2
            exact ⟨ht, by rw [length_filter_text_concat]; omega⟩
          · simp at h2
            subst h2
            refine ⟨hmk, ?_⟩
            rw [length_filter_text_concat, if_pos rfl]
            have h1 := one_le_length_filter_text hex
            omega
        · rintro ⟨ht, hc⟩
          rw [length_filter_text_concat] at hc
          by_cases hst : s.text = t
          · subst hst
            exact List.mem_append_right _ (by simp)
          · rw [if_neg hst] at hc
            exact List.mem_append_left _ ((hdups t).mpr ⟨ht, by omega⟩)
      · exact ((List.perm_append_singleton _ _).nodup_iff).mpr
          (List.nodup_cons.mpr ⟨hnotd, hnd⟩)
      · rw [List.filter_append, filter_text_singleton, if_neg hmk, List.append_nil]
        exact hpre
    · rw [if_neg hsn]
      by_cases hns : s.text ∉ st.seen
      · -- first occurrence: extend the map
        rw [if_pos hns]
        have hfind0 : List.find? (fun s2 => s2.text == s.text) p = none := by
          rw [List.find?_eq_none]
          intro s2 hs2
          simp only [beq_iff_eq]
          intro hts
          exact hns ((hseen s.text).mpr ⟨hmk, s2, hs2, hts⟩)
        refine ⟨?_, ?_, ?_, hnd, ?_, ?_⟩
        · intro t ht
          by_cases hst : s.text = t
          · subst hst
            have hnone : lookupSec st.map s.text = none := by
              rw [hmap s.text ht, hfind0]
            rw [lookupSec_concat_of_none s hnone, if_pos rfl,
              find?_text_concat_self hfind0 rfl]
          · rw [lookupSec_concat_of_ne s hst, hmap t ht, find?_text_concat_of_ne hst]
        · intro t
          constructor
          · intro hmem
            rcases List.mem_append.mp hmem with h2 | h2
            · obtain ⟨ht, hx⟩ := (hseen t).mp h2
              exact ⟨ht, (exists_text_concat p s t).mpr (Or.inl hx)⟩
            · simp at h2
              subst h2
              exact ⟨hmk, (exists_text_concat p s s.text).mpr (Or.inr rfl)⟩
          · rintro ⟨ht, hx⟩
            rcases (exists_text_concat p s t).mp hx with h2 | h2
            · exact List.mem_append_left _ ((hseen t).mpr ⟨ht, h2⟩)
            · subst h2
              exact List.mem_append_right _ (by simp)
        · intro t
          rw [hdups t, length_filter_text_concat]
          by_cases hst : s.text = t
          · subst hst
            have hc0 : (List.filter (fun s2 => s2.text == s.text) p).length = 0 := by
              rw [List.length_eq_zero, List.filter_eq_nil_iff]
              intro s2 hs2
              simp only [beq_iff_eq]
              intro hts2
              exact hns ((hseen s.text).mpr ⟨hmk, s2, hs2, hts2⟩)
            rw [if_pos rfl, hc0]
            constructor
            · rintro ⟨ht, hc⟩
              omega
            · rintro ⟨ht, hc⟩
              omega
          · rw [if_neg hst]
            constructor
            · rintro ⟨ht, hc⟩
              exact ⟨ht, by omega⟩
            · rintro ⟨ht, hc⟩
              exact ⟨ht, by omega⟩
        · rw [List.filter_append, filter_text_singleton, if_neg hmk, List.append_nil]
          exact hpre
        · intro kv hkv2
          rcases List.mem_append.mp hkv2 with h2 | h2
          · exact hkv kv h2
          · simp at h2
            subst h2
            exact ⟨rfl, hmk⟩
      · -- third or later occurrence: nothing changes
        rw [if_neg hns]
        push_neg at hns
        have hind : s.text ∈ st.dups := by
          by_contra hcon
          exact hsn ⟨hns, hcon⟩
        have hex : ∃ s2 ∈ p, s2.text = s.text := ((hseen s.text).mp hns).2
        refine ⟨?_, ?_, ?_, hnd, ?_, hkv⟩
        · intro t ht
          by_cases hst : s.text = t
          · subst hst
            rw [hmap s.text ht, find?_text_concat_of_found (find?_text_isSome hex)]
          · rw [hmap t ht, find?_text_concat_of_ne hst]
        · intro t
          rw [hseen t]
          constructor
          · rintro ⟨ht, hx⟩
            exact ⟨ht, (exists_text_concat p s t).mpr (Or.inl hx)⟩
          · rintro ⟨ht, hx⟩
            rcases (exists_text_concat p s t).mp hx with h2 | h2
            · exact ⟨ht, h2⟩
            · refine ⟨ht, ?_⟩
              rw [← h2]
              exact hex
        · intro t
          rw [hdups t, length_filter_text_concat]
          constructor
          · rintro ⟨ht, hc⟩
            exact ⟨ht, by omega⟩
          · rintro ⟨ht, hc⟩
            refine ⟨ht, ?_⟩
            by_cases hst : s.text = t
            · exact ((hdups t).mp (hst ▸ hind)).2
            · rw [if_neg hst] at hc
              omega
        · rw [List.filter_append, filter_text_singleton, if_neg hmk, List.append_nil]
          exact hpre

theorem mapInv_fold (secs : List Sec) :
    ∀ (p : List Sec) (st : MapState), MapInv p st →
      MapInv (p ++ secs) (secs.foldl buildMapStep st) := by
  induction secs with
  | nil =>
    intro p st h
    simpa using h
  | cons s rest ih =>
    intro p st h
    have h1 := ih (p ++ [s]) (buildMapStep st s) (mapInv_step s h)
    simpa [List.append_assoc] using h1

theorem mapInv_source (secs : List Sec) : MapInv secs (mapFold secs) := by
  have h := mapInv_fold secs [] initMapState mapInv_init
  simpa [mapFold] using h

theorem lookup_sourceMap_eq_find (secs : List Sec) (t : String) (ht : t ≠ "__PREAMBLE__") :
    lookupSec (sourceMap secs) t = secs.find? (fun s => s.text == t) :=
  (mapInv_source secs).1 t ht

theorem sourceMap_entry (secs : List Sec) :
    ∀ kv ∈ sourceMap secs, kv.2.text = kv.1 ∧ kv.1 ≠ "__PREAMBLE__" :=
  (mapInv_source secs).2.2.2.2.2

theorem sourceDups_iff (secs : List Sec) (t : String) :
    t ∈ sourceDups secs ↔
      (t ≠ "__PREAMBLE__" ∧ 2 ≤ (secs.filter (fun s => s.text == t)).length) :=
  (mapInv_source secs).2.2.1 t

theorem sourceDups_nodup (secs : List Sec) : (sourceDups secs).Nodup :=
  (mapInv_source secs).2.2.2.1

theorem sourcePreamble_eq (secs : List Sec) :
    sourcePreamble secs = (secs.filter (fun s => s.text == "__PREAMBLE__")).getLast? :=
  (mapInv_source secs).2.2.2.2.1

theorem lookup_sourceMap_text {secs : List Sec} {t : String} {s : Sec}
    (h : lookupSec (sourceMap secs) t = some s) : s.text = t ∧ t ≠ "__PREAMBLE__" :=
  sourceMap_entry secs (t, s) (lookupSec_mem h)

theorem lookup_sourceMap_marker (secs : List Sec) :
    lookupSec (sourceMap secs) "__PREAMBLE__" = none := by
  rw [lookupSec_eq_none_iff]
  intro hmem
  obtain ⟨kv, hkv, hk⟩ := List.mem_map.mp hmem
  exact (sourceMap_entry secs kv hkv).2 hk

/-! ## Properties of the writing plan -/

theorem mem_of_getLast?_eq_some {l : List Sec} {a : Sec} (h : l.getLast? = some a) : a ∈ l := by
  have h2 : a ∈ l.getLast? := h
  obtain ⟨hne, he⟩ := List.mem_getLast?_eq_getLast h2
  rw [he]
  exact List.getLast_mem hne

theorem preambleOut_cases (secs : List Sec) :
    preambleOut secs = [] ∨
      ∃ s, preambleOut secs = [s] ∧ s.text = "__PREAMBLE__" ∧
        ∃ x l, s.elements = some (x :: l) := by
  rcases hsp : sourcePreamble secs with _ | q
  · refine Or.inl ?_
    unfold preambleOut
    rw [hsp]
  · have hred : preambleOut secs =
        (match q.elements with
         | some (_ :: _) => [q]
         | _ => []) := by
      unfold preambleOut
      rw [hsp]
    have hq : q.text = "__PREAMBLE__" := by
      rw [sourcePreamble_eq] at hsp
      have hmem := mem_of_getLast?_eq_some hsp
      have := (List.mem_filter.mp hmem).2
      exact beq_iff_eq.mp this
    rcases hel : q.elements with _ | l
    · refine Or.inl ?_
      rw [hred, hel]
    · rcases l with _ | ⟨x, xs⟩
      · refine Or.inl ?_
        rw [hred, hel]
      · exact Or.inr ⟨q, by rw [hred, hel], hq, x, xs, hel⟩

theorem run_plan_eq_some {target enum : List String} {secs : List Sec}
    {mp : MissingPolicy} {up : UnmatchedPolicy} {p : List Sec}
    (hp : run_reorganize_plan target secs mp up enum = some p) :
    p = preambleOut secs ++ planMatched (sourceMap secs) target [] ++
        appendixOut secs enum up := by
  unfold run_reorganize_plan at hp
  split at hp
  · exact absurd hp (by simp)
  · injection hp with hp
    exact hp.symm

theorem planMatched_mem {m : List (String × Sec)} {ts proc : List String} {s : Sec}
    (h : s ∈ planMatched m ts proc) : ∃ t ∈ ts, lookupSec m t = some s := by
  induction ts generalizing proc with
  | nil => simp [planMatched] at h
  | cons t rest ih =>
    rcases hl : lookupSec m t with _ | v
    · simp only [planMatched, hl] at h
      obtain ⟨t2, ht2, h2⟩ := ih h
      exact ⟨t2, List.mem_cons_of_mem _ ht2, h2⟩
    · simp only [planMatched, hl] at h
      by_cases hp : t ∈ proc
      · rw [if_pos hp] at h
        obtain ⟨t2, ht2, h2⟩ := ih h
        exact ⟨t2, List.mem_cons_of_mem _ ht2, h2⟩
      · rw [if_neg hp] at h
        rcases List.mem_cons.mp h with h2 | h2
        · subst h2
          exact ⟨t, List.mem_cons_self _ _, hl⟩
        · obtain ⟨t2, ht2, h3⟩ := ih h2
          exact ⟨t2, List.mem_cons_of_mem _ ht2, h3⟩

theorem planMatched_text_props (m : List (String × Sec))
    (hm : ∀ kv ∈ m, kv.2.text = kv.1) (ts : List String) :
    ∀ proc : List String,
      (∀ s ∈ planMatched m ts proc, s.text ∉ proc) ∧
      ((planMatched m ts proc).map Sec.text).Nodup := by
  induction ts with
  | nil =>
    intro proc
    exact ⟨by simp [planMatched], by simp [planMatched]⟩
  | cons t rest ih =>
    intro proc
    rcases hl : lookupSec m t with _ | v
    · constructor
      · intro s hs
        simp only [planMatched, hl] at hs
        exact (ih proc).1 s hs
      · simp only [planMatched, hl]
        exact (ih proc).2
    · by_cases hp : t ∈ proc
      · constructor
        · intro s hs
          simp only [planMatched, hl, if_pos hp] at hs
          exact (ih proc).1 s hs
        · simp only [planMatched, hl, if_pos hp]
          exact (ih proc).2
      · have hvt : v.text = t := hm (t, v) (lookupSec_mem hl)
        constructor
        · intro s hs
          simp only [planMatched, hl, if_neg hp] at hs
          rcases List.mem_cons.mp hs with h2 | h2
          · subst h2
            rw [hvt]
            exact hp
          · intro hc
            exact (ih (t :: proc)).1 s h2 (List.mem_cons_of_mem _ hc)
        · simp only [planMatched, hl, if_neg hp, List.map_cons, List.nodup_cons]
          constructor
          · intro hc
            obtain ⟨s2, hs2, he⟩ := List.mem_map.mp hc
            have hnp := (ih (t :: proc)).1 s2 hs2
            rw [he, hvt] at hnp
            exact hnp (List.mem_cons_self _ _)
          · exact (ih (t :: proc)).2

theorem planMatched_text_mem {secs : List Sec} {target proc : List String} {s : Sec}
    (h : s ∈ planMatched (sourceMap secs) target proc) :
    s.text ∈ target ∧ s.text ≠ "__PREAMBLE__" := by
  obtain ⟨t, ht, hl⟩ := planMatched_mem h
  obtain ⟨he, hne⟩ := lookup_sourceMap_text hl
  subst he
  exact ⟨ht, hne⟩

theorem planMatched_eq_filterMap (m : List (String × Sec)) (ts : List String) :
    ∀ proc : List String, ts.Nodup → (∀ t ∈ ts, t ∉ proc) →
      planMatched m ts proc = ts.filterMap (fun t => lookupSec m t) := by
  induction ts with
  | nil => intro proc _ _; rfl
  | cons t rest ih =>
    intro proc hnd hproc
    rw [List.filterMap_cons]
    rcases hl : lookupSec m t with _ | s
    · simp only [planMatched, hl]
      exact ih proc (List.nodup_cons.mp hnd).2
        (fun x hx => hproc x (List.mem_cons_of_mem _ hx))
    · simp only [planMatched, hl]
      rw [if_neg (hproc t (List.mem_cons_self _ _))]
      congr 1
      apply ih (t :: proc) (List.nodup_cons.mp hnd).2
      intro x hx hmem
      rcases List.mem_cons.mp hmem with h2 | h2
      · exact (List.nodup_cons.mp hnd).1 (h2 ▸ hx)
      · exact hproc x (List.mem_cons_of_mem _ hx) h2

theorem planMatched_filter_ne {secs : List Sec} (t0 : String)
    (hnone : lookupSec (sourceMap secs) t0 = none) (ts : List String) :
    ∀ proc : List String,
      planMatched (sourceMap secs) (ts.filter (fun x => !(x == t0))) proc =
        planMatched (sourceMap secs) ts proc := by
  induction ts with
  | nil => intro _; rfl
  | cons t rest ih =>
    intro proc
    rw [List.filter_cons]
    by_cases ht : t = t0
    · rw [if_neg (by simp [ht])]
      have h2 : planMatched (sourceMap secs) (t :: rest) proc =
          planMatched (sourceMap secs) rest proc := by
        simp only [planMatched, ht, hnone]
      rw [h2]
      exact ih proc
    · rw [if_pos (by simp [ht])]
      rcases hl : lookupSec (sourceMap secs) t with _ | s
      · simp only [planMatched, hl]
        exact ih proc
      · simp only [planMatched, hl]
        by_cases hp : t ∈ proc
        · rw [if_pos hp, if_pos hp]
          exact ih proc
        · rw [if_neg hp, if_neg hp, ih (t :: proc)]

theorem appendix_text_facts {secs : List Sec} {enum : List String} {up : UnmatchedPolicy}
    {s : Sec} (h : s ∈ appendixOut secs enum up) :
    s.text ∈ enum ∧ s.text ≠ "__PREAMBLE__" ∧
      lookupSec (sourceMap secs) s.text = some s := by
  unfold appendixOut at h
  by_cases hup : up = UnmatchedPolicy.delete
  · rw [if_pos hup] at h
    simp at h
  · rw [if_neg hup] at h
    obtain ⟨k, hk, hl⟩ := List.mem_filterMap.mp h
    obtain ⟨he, hne⟩ := lookup_sourceMap_text hl
    subst he
    exact ⟨hk, hne, hl⟩

theorem appendix_texts (secs : List Sec) (enum : List String) (up : UnmatchedPolicy)
    (hup : up ≠ UnmatchedPolicy.delete) :
    (appendixOut secs enum up).map Sec.text =
      enum.filter (fun h => (lookupSec (sourceMap secs) h).isSome) := by
  unfold appendixOut
  rw [if_neg hup]
  induction enum with
  | nil => rfl
  | cons k rest ih =>
    rw [List.filterMap_cons, List.filter_cons]
    rcases hl : lookupSec (sourceMap secs) k with _ | s
    · simpa using ih
    · have he := (lookup_sourceMap_text hl).1
      simp [he, ih]

theorem appendix_text_nodup (secs : List Sec) (target enum : List String)
    (up : UnmatchedPolicy) (hv : validEnum secs target enum) :
    ((appendixOut secs enum up).map Sec.text).Nodup := by
  by_cases hup : up = UnmatchedPolicy.delete
  · simp [appendixOut, hup]
  · rw [appendix_texts secs enum up hup]
    exact hv.1.filter _

theorem appendix_mem_iff {secs : List Sec} {target enum : List String}
    {up : UnmatchedPolicy} (hv : validEnum secs target enum)
    (hup : up ≠ UnmatchedPolicy.delete) (s : Sec) :
    s ∈ appendixOut secs enum up ↔
      ∃ h, lookupSec (sourceMap secs) h = some s ∧ h ∉ target := by
  unfold appendixOut
  rw [if_neg hup]
  constructor
  · intro hmem
    obtain ⟨k, hk, hl⟩ := List.mem_filterMap.mp hmem
    exact ⟨k, hl, ((hv.2 k).mp hk).2⟩
  · rintro ⟨k, hl, hnt⟩
    apply List.mem_filterMap.mpr
    refine ⟨k, ?_, hl⟩
    apply (hv.2 k).mpr
    refine ⟨?_, hnt⟩
    show k ∈ (sourceMap secs).map (fun kv => kv.1)
    rw [← lookupSec_isSome_iff, hl]
    rfl

theorem appendix_text_not_target {secs : List Sec} {target enum : List String}
    {up : UnmatchedPolicy} (hv : validEnum secs target enum)
    {s : Sec} (hs : s ∈ appendixOut secs enum up) : s.text ∉ target := by
  obtain ⟨hmem, _, _⟩ := appendix_text_facts hs
  exact ((hv.2 s.text).mp hmem).2

/-- Helper to establish `validEnum` on concrete inputs. -/
theorem validEnum_of_keys {secs : List Sec} {target enum keys : List String}
    (hk : mapKeys secs = keys) (hnd : enum.Nodup)
    (hcov : ∀ h ∈ keys, h ∈ target ∨ h ∈ enum)
    (hsub : ∀ h ∈ enum, h ∈ keys ∧ h ∉ target) :
    validEnum secs target enum := by
  refine ⟨hnd, fun h => ⟨fun hm => by rw [hk]; exact hsub h hm, ?_⟩⟩
  rintro ⟨hk2, hnt⟩
  rw [hk] at hk2
  rcases hcov h hk2 with h1 | h1
  · exact absurd h1 hnt
  · exact h1

/-- C4: a target heading `t` absent from the source section map makes the
whole reorganize operation abort (no plan, hence no output document) under the
`error` policy; under `warn` or `ignore` the run goes on, produces a plan
identical to the one for the target with every `t` slot removed, and every
scheduled section is the preamble or carries a heading present in the source
map. -/
theorem C4_missing_policy (secs : List Sec) (target enum : List String) (t : String)
    (up : UnmatchedPolicy) (ht : t ∈ target) (habs : t ∉ mapKeys secs) :
    run_reorganize_plan target secs MissingPolicy.error up enum = none ∧
    ∀ mp, mp = MissingPolicy.warn ∨ mp = MissingPolicy.ignore →
      run_reorganize_plan target secs mp up enum
          = run_reorganize_plan (target.filter (fun x => !(x == t))) secs mp up enum ∧
      (run_reorganize_plan target secs mp up enum).isSome = true ∧
      ∀ p, run_reorganize_plan target secs mp up enum = some p →
        ∀ s ∈ p, s.text ∈ mapKeys secs ∨ s.text = "__PREAMBLE__" := by
  have hmem : t ∈ missingOf secs target := by
    apply List.mem_filter.mpr
    exact ⟨ht, by simp [habs]⟩
  have hmiss : missingOf secs target ≠ [] := List.ne_nil_of_mem hmem
  have hnone : lookupSec (sourceMap secs) t = none := by
    rw [lookupSec_eq_none_iff]
    exact habs
  constructor
  · unfold run_reorganize_plan
    rw [if_pos ⟨rfl, hmiss⟩]
  · intro mp hmp
    have hcond : ¬(mp = MissingPolicy.error ∧ missingOf secs target ≠ []) := by
      rintro ⟨he, _⟩
      rcases hmp with h | h <;> (subst h; exact absurd he (by decide))
    have hcond2 : ¬(mp = MissingPolicy.error ∧
        missingOf secs (target.filter (fun x => !(x == t))) ≠ []) := by
      rintro ⟨he, _⟩
      rcases hmp with h | h <;> (subst h; exact absurd he (by decide))
    refine ⟨?_, ?_, ?_⟩
    · unfold run_reorganize_plan
      rw [if_neg hcond, if_neg hcond2,
        planMatched_filter_ne t hnone target []]
    · unfold run_reorganize_plan
      rw [if_neg hcond]
      rfl
    · intro p hp s hs
      rw [run_plan_eq_some hp] at hs
      rcases List.mem_append.mp hs with hs2 | hs2
      · rcases List.mem_append.mp hs2 with hs3 | hs3
        · rcases preambleOut_cases secs with hc | ⟨s0, hc, hc2, _⟩
          · rw [hc] at hs3
            simp at hs3
          · rw [hc] at hs3
            simp at hs3
            subst hs3
            exact Or.inr hc2
        · obtain ⟨t2, _, hl⟩ := planMatched_mem hs3
          obtain ⟨he, _⟩ := lookup_sourceMap_text hl
          refine Or.inl ?_
          rw [he]
          show t2 ∈ (sourceMap secs).map (fun kv => kv.1)
          rw [← lookupSec_isSome_iff, hl]
          rfl
      · obtain ⟨_, _, hl⟩ := appendix_text_facts hs2
        refine Or.inl ?_
        show s.text ∈ (sourceMap secs).map (fun kv => kv.1)
        rw [← lookupSec_isSome_iff, hl]
        rfl

/-- C1 as amended: with the `append` or `warn` unmatched policy, the sections
appended after the TOC-matched block are exactly the first-instance source
sections whose heading is absent from the target list, each exactly once —
but in the iteration order of the Python set holding the unmatched headings
(an arbitrary, hash-dependent order), not necessarily in source document
order; with `delete`, none of them is scheduled. -/
theorem C1_unmatched_policy (secs : List Sec) (target enum : List String)
    (mp : MissingPolicy) (up : UnmatchedPolicy)
    (hv : validEnum secs target enum)
    (hok : ¬(mp = MissingPolicy.error ∧ missingOf secs target ≠ [])) :
    (up = UnmatchedPolicy.append ∨ up = UnmatchedPolicy.warn →
      run_reorganize_plan target secs mp up enum
        = some (preambleOut secs ++ planMatched (sourceMap secs) target [] ++
            enum.filterMap (fun h => lookupSec (sourceMap secs) h)) ∧
      (∀ s, s ∈ enum.filterMap (fun h => lookupSec (sourceMap secs) h) ↔
        ∃ h, lookupSec (sourceMap secs) h = some s ∧ h ∉ target) ∧
      ((enum.filterMap (fun h => lookupSec (sourceMap secs) h)).map Sec.text).Nodup) ∧
    (up = UnmatchedPolicy.delete →
      run_reorganize_plan target secs mp up enum
        = some (preambleOut secs ++ planMatched (sourceMap secs) target [])) := by
  constructor
  · intro hup
    have hup2 : up ≠ UnmatchedPolicy.delete := by
      rcases hup with h | h <;> (subst h; decide)
    have happ : appendixOut secs enum up =
        enum.filterMap (fun h => lookupSec (sourceMap secs) h) := by
      unfold appendixOut
      rw [if_neg hup2]
    refine ⟨?_, ?_, ?_⟩
    · unfold run_reorganize_plan
      rw [if_neg hok, happ]
    · intro s
      rw [← happ]
      exact appendix_mem_iff hv hup2 s
    · have := appendix_text_nodup secs target enum up hv
      rw [happ] at this
      exact this
  · intro hup
    unfold run_reorganize_plan
    rw [if_neg hok]
    subst hup
    rw [show appendixOut secs enum UnmatchedPolicy.delete = [] from rfl, List.append_nil]

/-- C10: in every plan the reorganizer produces, no section is scheduled
twice: the scheduled heading texts are pairwise distinct, a section carrying
the preamble marker text can only sit at the head of the plan, and the
TOC-matched block is disjoint from the appended-unmatched block. -/
theorem C10_no_double_emission (secs : List Sec) (target enum : List String)
    (mp : MissingPolicy) (up : UnmatchedPolicy) (p : List Sec)
    (hv : validEnum secs target enum)
    (hp : run_reorganize_plan target secs mp up enum = some p) :
    (p.map Sec.text).Nodup ∧
    (∀ s ∈ p, s.text = "__PREAMBLE__" → p.head? = some s) ∧
    (∀ s ∈ planMatched (sourceMap secs) target [], s ∉ appendixOut secs enum up) := by
  have hdisj : ∀ s ∈ planMatched (sourceMap secs) target [],
      s ∉ appendixOut secs enum up := by
    intro s hs hc
    exact appendix_text_not_target hv hc (planMatched_text_mem hs).1
  have hmn : ((planMatched (sourceMap secs) target []).map Sec.text).Nodup :=
    (planMatched_text_props (sourceMap secs)
      (fun kv hkv => (sourceMap_entry secs kv hkv).1) target []).2
  have han : ((appendixOut secs enum up).map Sec.text).Nodup :=
    appendix_text_nodup secs target enum up hv
  have hd2 : ∀ x ∈ (planMatched (sourceMap secs) target []).map Sec.text,
      x ∉ (appendixOut secs enum up).map Sec.text := by
    intro x hx hc
    obtain ⟨s1, hs1, he1⟩ := List.mem_map.mp hx
    obtain ⟨s2, hs2, he2⟩ := List.mem_map.mp hc
    have h1 : x ∈ target := he1 ▸ (planMatched_text_mem hs1).1
    have h2 : x ∉ target := he2 ▸ appendix_text_not_target hv hs2
    exact h2 h1
  have htail : ((planMatched (sourceMap secs) target [] ++
      appendixOut secs enum up).map Sec.text).Nodup := by
    rw [List.map_append, List.nodup_append]
    exact ⟨hmn, han, hd2⟩
  have htailmk : ∀ s2 ∈ planMatched (sourceMap secs) target [] ++
      appendixOut secs enum up, s2.text ≠ "__PREAMBLE__" := by
    intro s2 hs2
    rcases List.mem_append.mp hs2 with h2 | h2
    · exact (planMatched_text_mem h2).2
    · exact (appendix_text_facts h2).2.1
  rw [run_plan_eq_some hp, List.append_assoc]
  rcases preambleOut_cases secs with hc | ⟨s0, hc, hmk0, _⟩
  · rw [hc, List.nil_append]
    refine ⟨htail, ?_, hdisj⟩
    intro s hs hsm
    exact absurd hsm (htailmk s hs)
  · rw [hc, List.singleton_append]
    refine ⟨?_, ?_, hdisj⟩
    · rw [List.map_cons, List.nodup_cons]
      refine ⟨?_, htail⟩
      intro hcm
      obtain ⟨s2, hs2, he2⟩ := List.mem_map.mp hcm
      exact htailmk s2 hs2 (he2.trans hmk0)
    · intro s hs hsm
      rcases List.mem_cons.mp hs with h2 | h2
      · subst h2
        rfl
      · exact absurd hsm (htailmk s h2)

/-- C5 as amended: for a heading text `t` other than the reserved marker
`__PREAMBLE__`, the section map holds exactly the first extracted section with
text `t`; a duplicate report for `t` is issued exactly once (the report list
has no repeats and mentions `t` iff `t` occurs at least twice); and any
section that any reorganize plan schedules with text `t` is that first
occurrence, so later occurrences are never scheduled. -/
theorem C5_duplicate_headings (secs : List Sec) (t : String)
    (ht : t ≠ "__PREAMBLE__") :
    lookupSec (sourceMap secs) t = secs.find? (fun s => s.text == t) ∧
    (t ∈ sourceDups secs ↔ 2 ≤ (secs.filter (fun s => s.text == t)).length) ∧
    (sourceDups secs).Nodup ∧
    (∀ (target enum : List String) (mp : MissingPolicy) (up : UnmatchedPolicy)
        (p : List Sec),
      run_reorganize_plan target secs mp up enum = some p →
      ∀ s ∈ p, s.text = t → secs.find? (fun s2 => s2.text == t) = some s) := by
  refine ⟨lookup_sourceMap_eq_find secs t ht, ?_, sourceDups_nodup secs, ?_⟩
  · rw [sourceDups_iff]
    constructor
    · rintro ⟨_, h⟩
      exact h
    · intro h
      exact ⟨ht, h⟩
  · intro target enum mp up p hp s hs hst
    have hl : lookupSec (sourceMap secs) s.text = some s := by
      rw [run_plan_eq_some hp] at hs
      rcases List.mem_append.mp hs with hs2 | hs2
      · rcases List.mem_append.mp hs2 with hs3 | hs3
        · rcases preambleOut_cases secs with hc | ⟨s0, hc, hc2, _⟩
          · rw [hc] at hs3
            simp at hs3
          · rw [hc] at hs3
            simp at hs3
            subst hs3
            exact absurd (hst ▸ hc2 : (t = "__PREAMBLE__")) ht
        · obtain ⟨t2, _, hl2⟩ := planMatched_mem hs3
          obtain ⟨he, _⟩ := lookup_sourceMap_text hl2
          rw [he]
          exact hl2
      · exact (appendix_text_facts hs2).2.2
    rw [hst] at hl
    rw [← lookup_sourceMap_eq_find secs t ht]
    exact hl

/-! ## Concrete documents used to instantiate and to refute claims -/

/-- A paragraph styled `Heading 1` with the given text. -/
def eH1 (s : String) : Elem := ⟨true, some "Heading 1", s⟩

/-- An ordinary body paragraph. -/
def eBody (s : String) : Elem := ⟨false, none, s⟩

def docABC : List Elem :=
  [eH1 "A", eBody "a", eH1 "B", eBody "b", eH1 "C", eBody "c"]

def secA : Sec := ⟨"A", 1, some [eH1 "A", eBody "a"]⟩
def secB : Sec := ⟨"B", 1, some [eH1 "B", eBody "b"]⟩
def secC : Sec := ⟨"C", 1, some [eH1 "C", eBody "c"]⟩

/-- A heading paragraph whose visible text is the reserved preamble marker. -/
def eHP : Elem := ⟨true, some "Heading 1", "__PREAMBLE__"⟩

def docDupMarker : List Elem := [eHP, eBody "one", eHP, eBody "two"]

def docAAA : List Elem :=
  [eH1 "A", eBody "x", eH1 "A", eBody "y", eH1 "A", eBody "z"]

/-- C1 counterexample: with source headings `A, B, C` and target `["B"]`,
`["C", "A"]` is a legitimate iteration order of the Python set of unmatched
headings, and under it the appended tail is `C` then `A` — not the source
document order `A` then `C` the claim promises.  The appended order is
whatever order the set iterates in, which Python does not fix. -/
theorem C1_counterexample :
    validEnum (parse_document_structure 6 true docABC) ["B"] ["C", "A"] ∧
    run_reorganize_plan ["B"] (parse_document_structure 6 true docABC)
        MissingPolicy.warn UnmatchedPolicy.append ["C", "A"]
      = some [secB, secC, secA] ∧
    some [secB, secC, secA] ≠ some [secB, secA, secC] := by
  refine ⟨@validEnum_of_keys (parse_document_structure 6 true docABC) ["B"]
    ["C", "A"] ["A", "B", "C"] (by decide) (by decide) (by decide) (by decide),
    by decide, by decide⟩

theorem C1_witness :
    validEnum (parse_document_structure 6 true docABC) ["B"] ["C", "A"] ∧
    run_reorganize_plan ["B"] (parse_document_structure 6 true docABC)
        MissingPolicy.warn UnmatchedPolicy.warn ["C", "A"]
      = some (preambleOut (parse_document_structure 6 true docABC) ++
          planMatched (sourceMap (parse_document_structure 6 true docABC)) ["B"] [] ++
          ["C", "A"].filterMap
            (fun h => lookupSec (sourceMap (parse_document_structure 6 true docABC)) h)) := by
  have hv : validEnum (parse_document_structure 6 true docABC) ["B"] ["C", "A"] :=
    @validEnum_of_keys (parse_document_structure 6 true docABC) ["B"]
      ["C", "A"] ["A", "B", "C"] (by decide) (by decide) (by decide) (by decide)
  have hok : ¬(MissingPolicy.warn = MissingPolicy.error ∧
      missingOf (parse_document_structure 6 true docABC) ["B"] ≠ []) := by
    rintro ⟨h, _⟩
    exact absurd h (by decide)
  exact ⟨hv, ((C1_unmatched_policy _ _ _ _ _ hv hok).1 (Or.inr rfl)).1⟩

theorem C4_witness :
    ("B" ∈ ["A", "B"] ∧ "B" ∉ mapKeys [secA]) ∧
    run_reorganize_plan ["A", "B"] [secA]
        MissingPolicy.error UnmatchedPolicy.append [] = none ∧
    (run_reorganize_plan ["A", "B"] [secA]
        MissingPolicy.warn UnmatchedPolicy.append []).isSome = true := by
  have ht : "B" ∈ ["A", "B"] := by decide
  have habs : "B" ∉ mapKeys [secA] := by decide
  have h := C4_missing_policy [secA] ["A", "B"] [] "B" UnmatchedPolicy.append ht habs
  exact ⟨⟨ht, habs⟩, h.1, (h.2 MissingPolicy.warn (Or.inl rfl)).2.1⟩

theorem C10_witness :
    validEnum [secA, secB, secC] ["B", "B"] ["C", "A"] ∧
    (([secB, secC, secA].map Sec.text).Nodup) := by
  have hv : validEnum [secA, secB, secC] ["B", "B"] ["C", "A"] :=
    @validEnum_of_keys [secA, secB, secC] ["B", "B"] ["C", "A"] ["A", "B", "C"]
      (by decide) (by decide) (by decide) (by decide)
  have hp : run_reorganize_plan ["B", "B"] [secA, secB, secC] MissingPolicy.warn
      UnmatchedPolicy.append ["C", "A"] = some [secB, secC, secA] := by decide
  exact ⟨hv, (C10_no_double_emission _ _ _ _ _ _ hv hp).1⟩

/-- C5 counterexample: a document whose two `Heading 1` paragraphs both read
`__PREAMBLE__` yields two extracted sections with identical heading text, yet
the section map holds neither of them (not even the first), no duplicate is
reported, and the output consists exactly of the second occurrence's elements
(it hijacks the preamble slot, last occurrence winning). -/
theorem C5_counterexample :
    (parse_document_structure 6 true docDupMarker).map Sec.text
        = ["__PREAMBLE__", "__PREAMBLE__"] ∧
    lookupSec (sourceMap (parse_document_structure 6 true docDupMarker))
        "__PREAMBLE__" = none ∧
    sourceDups (parse_document_structure 6 true docDupMarker) = [] ∧
    run_reorganize_out ["Z"] (parse_document_structure 6 true docDupMarker)
        MissingPolicy.ignore UnmatchedPolicy.append []
      = some [eHP, eBody "two"] := by
  exact ⟨by decide, by decide, by decide, by decide⟩

theorem C5_witness :
    ("A" ≠ "__PREAMBLE__") ∧
    lookupSec (sourceMap (parse_document_structure 6 true docAAA)) "A"
      = (parse_document_structure 6 true docAAA).find? (fun s => s.text == "A") ∧
    ("A" ∈ sourceDups (parse_document_structure 6 true docAAA) ↔
      2 ≤ ((parse_document_structure 6 true docAAA).filter
        (fun s => s.text == "A")).length) := by
  have ht : ("A" : String) ≠ "__PREAMBLE__" := by decide
  have h := C5_duplicate_headings (parse_document_structure 6 true docAAA) "A" ht
  exact ⟨ht, h.1, h.2.1⟩

/-! ## Structural properties of the element scan -/

/-- Whether the scan classifies an element as a heading paragraph. -/
def isHeadingElem (L : Nat) (e : Elem) : Bool :=
  e.isPara && (is_heading_style e.style e.text L).isSome

/-- The (raw text, level) pairs of the heading paragraphs of a document, in
document order. -/
def docHeadings (L : Nat) (doc : List Elem) : List (String × Nat) :=
  doc.filterMap (fun e =>
    if e.isPara then
      (is_heading_style e.style e.text L).map (fun q => (q.2, q.1))
    else none)

theorem pyStrip_marker : pyStrip "__PREAMBLE__" = "__PREAMBLE__" := by decide

theorem parseStep_content {L : Nat} {inc : Bool} (st : PState) {e : Elem}
    (h : isHeadingElem L e = false) : parseStep L inc st e = addContent inc st e := by
  unfold parseStep
  by_cases hp : e.isPara = true
  · rw [if_pos hp]
    rcases hh : is_heading_style e.style e.text L with _ | q
    · rfl
    · exfalso
      unfold isHeadingElem at h
      rw [hp, hh] at h
      simp at h
  · rw [if_neg hp]

theorem parseStep_heading {L : Nat} {inc : Bool} (st : PState) {e : Elem}
    {lv : Nat} {tx : String} (hp : e.isPara = true)
    (hh : is_heading_style e.style e.text L = some (lv, tx)) :
    parseStep L inc st e =
      { sections := if closesOut st then st.sections ++ [finishSec st] else st.sections
        curText := tx
        curLevel := lv
        curElems := if inc then some [e] else none } := by
  unfold parseStep
  rw [if_pos hp, hh]

theorem addContent_eq (inc : Bool) (st : PState) (e : Elem) :
    ∃ ce, addContent inc st e = { st with curElems := ce } := by
  unfold addContent
  by_cases h : inc = true
  · rw [if_pos h]
    rcases st.curElems with _ | l
    · exact ⟨st.curElems, rfl⟩
    · exact ⟨some (l ++ [e]), rfl⟩
  · rw [if_neg h]
    exact ⟨st.curElems, rfl⟩

theorem addContent_true {st : PState} {acc : List Elem} (h : st.curElems = some acc)
    (e : Elem) : addContent true st e = { st with curElems := some (acc ++ [e]) } := by
  unfold addContent
  rw [if_pos rfl, h]

theorem parseFold_cons (L : Nat) (inc : Bool) (st : PState) (e : Elem) (doc : List Elem) :
    parseFold L inc st (e :: doc) = parseFold L inc (parseStep L inc st e) doc := rfl

theorem parseFold_nil (L : Nat) (inc : Bool) (st : PState) :
    parseFold L inc st [] = st := rfl

/-- Scan-state invariant of the element-capturing pass. -/
def PInv (st : PState) : Prop :=
  (∃ l, st.curElems = some l) ∧
  (0 < st.curLevel → ∃ x l, st.curElems = some (x :: l)) ∧
  (st.curLevel = 0 → st.sections = [] ∧ st.curText = "__PREAMBLE__") ∧
  (match st.sections with
   | [] => True
   | _ :: rest => ∀ s ∈ rest, 0 < s.level) ∧
  (∀ s ∈ st.sections, s.level = 0 → s.text = "__PREAMBLE__") ∧
  (∀ s ∈ st.sections, ∃ x l, s.elements = some (x :: l))

theorem pInv_init : PInv (initPState true) := by
  refine ⟨⟨[], rfl⟩, ?_, ?_, trivial, ?_, ?_⟩
  · intro h
    exact absurd h (by decide)
  · intro _
    exact ⟨rfl, rfl⟩
  · intro s hs
    exact absurd hs (List.not_mem_nil s)
  · intro s hs
    exact absurd hs (List.not_mem_nil s)

theorem finishSec_elements (st : PState) : (finishSec st).elements = st.curElems := rfl

theorem finishSec_level (st : PState) : (finishSec st).level = st.curLevel := rfl

theorem finishSec_text (st : PState) : (finishSec st).text = pyStrip st.curText := rfl

theorem closesOut_of_pos {st : PState} (h : 0 < st.curLevel) : closesOut st = true := by
  unfold closesOut
  simp [h]

theorem closesOut_zero_buffer {st : PState} (hlv : st.curLevel = 0)
    (hc : closesOut st = true) : ∃ x l, st.curElems = some (x :: l) := by
  unfold closesOut at hc
  rw [hlv] at hc
  rcases hel : st.curElems with _ | l
  · rw [hel] at hc
    simp at hc
  · rcases l with _ | ⟨x, xs⟩
    · rw [hel] at hc
      simp at hc
    · exact ⟨x, xs, rfl⟩

/-- The section appended by a close-out satisfies the finished-section clauses
of the invariant. -/
theorem finishSec_good {st : PState} (hinv : PInv st) (hc : closesOut st = true) :
    ((finishSec st).level = 0 → (finishSec st).text = "__PREAMBLE__") ∧
    (∃ x l, (finishSec st).elements = some (x :: l)) := by
  obtain ⟨_, h2, h3, _, _, _⟩ := hinv
  constructor
  · intro h0
    rw [finishSec_level] at h0
    rw [finishSec_text, (h3 h0).2, pyStrip_marker]
  · rw [finishSec_elements]
    rcases Nat.eq_zero_or_pos st.curLevel with h0 | h0
    · exact closesOut_zero_buffer h0 hc
    · exact h2 h0

theorem pInv_step (L : Nat) (st : PState) (e : Elem) (h : PInv st) :
    PInv (parseStep L true st e) := by
  rcases hhe : isHeadingElem L e with _ | _
  · -- ordinary content: only the buffer may grow
    rw [parseStep_content st hhe]
    obtain ⟨⟨acc, hacc⟩, h2, h3, h4, h5, h6⟩ := h
    rw [addContent_true hacc e]
    refine ⟨⟨acc ++ [e], rfl⟩, ?_, ?_, h4, h5, h6⟩
    · intro hp
      obtain ⟨x, l, hx⟩ := h2 hp
      rw [hacc] at hx
      injection hx with hx
      subst hx
      exact ⟨x, l ++ [e], rfl⟩
    · intro h0
      exact h3 h0
  · -- a heading paragraph: close out and restart the accumulator
    have hhe2 := hhe
    simp only [isHeadingElem, Bool.and_eq_true] at hhe2
    obtain ⟨hp, hsome⟩ := hhe2
    rcases hh : is_heading_style e.style e.text L with _ | ⟨lv, tx⟩
    · rw [hh] at hsome
      simp at hsome
    · have hlv : 1 ≤ lv := is_heading_style_level_pos hh
      rw [parseStep_heading st hp hh]
      obtain ⟨⟨acc, hacc⟩, h2, h3, h4, h5, h6⟩ := h
      refine ⟨⟨[e], rfl⟩, fun _ => ⟨e, [], rfl⟩,
        fun h0 => absurd (show lv = 0 from h0) (by omega), ?_, ?_, ?_⟩
      · -- levels of the non-head finished sections stay positive
        by_cases hc : closesOut st = true
        · rw [if_pos hc]
          rcases hsec : st.sections with _ | ⟨s0, rest⟩
          · simp
          · simp only [List.cons_append]
            intro s hs
            rcases List.mem_append.mp hs with hs2 | hs2
            · rw [hsec] at h4
              exact h4 s hs2
            · simp at hs2
              subst hs2
              rw [finishSec_level]
              rcases Nat.eq_zero_or_pos st.curLevel with h0 | h0
              · exact absurd hsec ((h3 h0).1 ▸ by simp)
              · exact h0
        · rw [if_neg hc]
          exact h4
    -- clause 5 and 6
      · intro s hs h0
        by_cases hc : closesOut st = true
        · rw [if_pos hc] at hs
          rcases List.mem_append.mp hs with hs2 | hs2
          · exact h5 s hs2 h0
          · simp at hs2
            subst hs2
            exact (finishSec_good ⟨⟨acc, hacc⟩, h2, h3, h4, h5, h6⟩ hc).1 h0
        · rw [if_neg hc] at hs
          exact h5 s hs h0
      · intro s hs
        by_cases hc : closesOut st = true
        · rw [if_pos hc] at hs
          rcases List.mem_append.mp hs with hs2 | hs2
          · exact h6 s hs2
          · simp at hs2
            subst hs2
            exact (finishSec_good ⟨⟨acc, hacc⟩, h2, h3, h4, h5, h6⟩ hc).2
        · rw [if_neg hc] at hs
          exact h6 s hs

theorem pInv_fold (L : Nat) (doc : List Elem) :
    ∀ st : PState, PInv st → PInv (parseFold L true st doc) := by
  induction doc with
  | nil =>
    intro st h
    exact h
  | cons e rest ih =>
    intro st h
    rw [parseFold_cons]
    exact ih _ (pInv_step L st e h)

theorem parseClose_props {st : PState} (h : PInv st) :
    (match parseClose st with
     | [] => True
     | _ :: rest => ∀ s ∈ rest, 0 < s.level) ∧
    (∀ s ∈ parseClose st, s.level = 0 → s.text = "__PREAMBLE__") ∧
    (∀ s ∈ parseClose st, ∃ x l, s.elements = some (x :: l)) := by
  obtain ⟨h1, h2, h3, h4, h5, h6⟩ := h
  unfold parseClose
  by_cases hc : closesOut st = true
  · rw [if_pos hc]
    refine ⟨?_, ?_, ?_⟩
    · rcases hsec : st.sections with _ | ⟨s0, rest⟩
      · simp
      · simp only [List.cons_append]
        intro s hs
        rcases List.mem_append.mp hs with hs2 | hs2
        · rw [hsec] at h4
          exact h4 s hs2
        · simp at hs2
          subst hs2
          rw [finishSec_level]
          rcases Nat.eq_zero_or_pos st.curLevel with h0 | h0
          · have hnil := (h3 h0).1
            rw [hsec] at hnil
            simp at hnil
          · exact h0
    · intro s hs
      rcases List.mem_append.mp hs with hs2 | hs2
      · exact h5 s hs2
      · simp at hs2
        subst hs2
        exact (finishSec_good ⟨h1, h2, h3, h4, h5, h6⟩ hc).1
    · intro s hs
      rcases List.mem_append.mp hs with hs2 | hs2
      · exact h6 s hs2
      · simp at hs2
        subst hs2
        exact (finishSec_good ⟨h1, h2, h3, h4, h5, h6⟩ hc).2
  · rw [if_neg hc]
    exact ⟨h4, h5, h6⟩

theorem dropEmptyPreamble_id {secs : List Sec}
    (h : ∀ s ∈ secs, ∃ x l, s.elements = some (x :: l)) :
    dropEmptyPreamble true secs = secs := by
  cases secs with
  | nil => rfl
  | cons s rest =>
    show (if s.text = "__PREAMBLE__" ∧ (s.elements = some [] ∨ s.elements = none)
      then rest else s :: rest) = s :: rest
    rw [if_neg]
    rintro ⟨_, hel⟩
    obtain ⟨x, l, he⟩ := h s (List.mem_cons_self _ _)
    rcases hel with h2 | h2 <;> (rw [he] at h2; simp at h2)

/-- The structure of the element-capturing extraction: only the head section
may have level 0, and then it carries the `__PREAMBLE__` marker text; every
extracted section has a non-empty element list (so an empty preamble section
is never produced). -/
theorem parse_inc_props (L : Nat) (doc : List Elem) :
    (match parse_document_structure L true doc with
     | [] => True
     | _ :: rest => ∀ s ∈ rest, 0 < s.level) ∧
    (∀ s ∈ parse_document_structure L true doc, s.level = 0 → s.text = "__PREAMBLE__") ∧
    (∀ s ∈ parse_document_structure L true doc, ∃ x l, s.elements = some (x :: l)) := by
  have hinv := pInv_fold L doc (initPState true) pInv_init
  have hc := parseClose_props hinv
  have hdrop : dropEmptyPreamble true (parseClose (parseFold L true (initPState true) doc))
      = parseClose (parseFold L true (initPState true) doc) :=
    dropEmptyPreamble_id hc.2.2
  unfold parse_document_structure
  rw [hdrop]
  exact hc

theorem parse_level0_head (L : Nat) (doc : List Elem) {s : Sec}
    (hs : s ∈ parse_document_structure L true doc) (h0 : s.level = 0) :
    (parse_document_structure L true doc).head? = some s := by
  obtain ⟨hm, _, _⟩ := parse_inc_props L doc
  rcases hsec : parse_document_structure L true doc with _ | ⟨s0, rest⟩
  · rw [hsec] at hs
    simp at hs
  · rw [hsec] at hs hm
    have hrest : ∀ s2 ∈ rest, 0 < s2.level := hm
    rcases List.mem_cons.mp hs with h2 | h2
    · subst h2
      rfl
    · have := hrest s h2
      omega

/-! ## The flat heading list the scan recovers from a document -/

/-- The heading contribution of the finished sections plus the still-open
accumulator. -/
def headingPairsState (st : PState) : List (String × Nat) :=
  (st.sections.filterMap
    (fun s => if 0 < s.level then some (s.text, s.level) else none)) ++
    (if 0 < st.curLevel then [(pyStrip st.curText, st.curLevel)] else [])

theorem headingPairsState_step (L : Nat) (inc : Bool) (st : PState) (e : Elem) :
    headingPairsState (parseStep L inc st e) =
      headingPairsState st ++ (docHeadings L [e]).map (fun q => (pyStrip q.1, q.2)) := by
  rcases hhe : isHeadingElem L e with _ | _
  · rw [parseStep_content st hhe]
    obtain ⟨ce, hce⟩ := addContent_eq inc st e
    rw [hce]
    have hdoc : docHeadings L [e] = [] := by
      unfold docHeadings
      by_cases hp : e.isPara = true
      · unfold isHeadingElem at hhe
        rw [hp] at hhe
        simp only [Bool.true_and] at hhe
        rcases hh : is_heading_style e.style e.text L with _ | q
        · simp [List.filterMap, hp, hh]
        · rw [hh] at hhe
          simp at hhe
      · simp [List.filterMap, hp]
    rw [hdoc]
    simp only [List.map_nil, List.append_nil]
    rfl
  · have hhe2 := hhe
    simp only [isHeadingElem, Bool.and_eq_true] at hhe2
    obtain ⟨hp, hsome⟩ := hhe2
    rcases hh : is_heading_style e.style e.text L with _ | ⟨lv, tx⟩
    · rw [hh] at hsome
      simp at hsome
    · have hlv : 1 ≤ lv := is_heading_style_level_pos hh
      rw [parseStep_heading st hp hh]
      have hdoc : docHeadings L [e] = [(tx, lv)] := by
        unfold docHeadings
        simp [List.filterMap, hp, hh]
      rw [hdoc]
      show (if closesOut st then st.sections ++ [finishSec st]
          else st.sections).filterMap
            (fun s => if 0 < s.level then some (s.text, s.level) else none) ++
          (if 0 < lv then [(pyStrip tx, lv)] else []) =
        headingPairsState st ++ [(pyStrip tx, lv)]
      rw [if_pos (show 0 < lv by omega)]
      unfold headingPairsState
      by_cases hc : closesOut st = true
      · rw [if_pos hc, List.filterMap_append]
        have hfm : List.filterMap
            (fun s => if 0 < s.level then some (s.text, s.level) else none)
            [finishSec st]
            = (if 0 < st.curLevel then [(pyStrip st.curText, st.curLevel)] else []) := by
          by_cases h0 : 0 < st.curLevel
          · simp [List.filterMap, finishSec, h0]
          · simp [List.filterMap, finishSec, h0]
        rw [hfm, List.append_assoc]
      · rw [if_neg hc]
        have h0 : ¬ 0 < st.curLevel := fun h0 => hc (closesOut_of_pos h0)
        rw [if_neg h0, List.append_nil]

theorem headingPairs_fold (L : Nat) (inc : Bool) (doc : List Elem) :
    ∀ st : PState, headingPairsState (parseFold L inc st doc) =
      headingPairsState st ++ (docHeadings L doc).map (fun q => (pyStrip q.1, q.2)) := by
  induction doc with
  | nil =>
    intro st
    simp [parseFold_nil, docHeadings]
  | cons e rest ih =>
    intro st
    rw [parseFold_cons, ih]
    rw [headingPairsState_step]
    have hsplit : docHeadings L (e :: rest) = docHeadings L [e] ++ docHeadings L rest := by
      unfold docHeadings
      rw [show (e :: rest) = [e] ++ rest from rfl, List.filterMap_append]
    rw [hsplit, List.map_append]
    simp [List.append_assoc]

theorem parseClose_headingPairs (st : PState) :
    (parseClose st).filterMap
        (fun s => if 0 < s.level then some (s.text, s.level) else none)
      = headingPairsState st := by
  unfold parseClose headingPairsState
  by_cases hc : closesOut st = true
  · rw [if_pos hc, List.filterMap_append]
    congr 1
    by_cases h0 : 0 < st.curLevel
    · simp [List.filterMap, finishSec, h0]
    · simp [List.filterMap, finishSec, h0]
  · rw [if_neg hc]
    have h0 : ¬ 0 < st.curLevel := fun h0 => hc (closesOut_of_pos h0)
    rw [if_neg h0, List.append_nil]

/-- The (text, level) pairs of the extracted heading sections are exactly the
heading paragraphs of the document, in order, with their raw texts
edge-stripped. -/
theorem parse_heading_pairs (L : Nat) (doc : List Elem) :
    (parse_document_structure L true doc).filterMap
        (fun s => if 0 < s.level then some (s.text, s.level) else none)
      = (docHeadings L doc).map (fun q => (pyStrip q.1, q.2)) := by
  have hinv := pInv_fold L doc (initPState true) pInv_init
  have hdrop := dropEmptyPreamble_id (parseClose_props hinv).2.2
  unfold parse_document_structure
  rw [hdrop, parseClose_headingPairs]
  have h := headingPairs_fold L true doc (initPState true)
  have hinit : headingPairsState (initPState true) = [] := rfl
  rw [h, hinit]
  simp

/-! ## The preamble section and the content before the first heading -/

/-- The document elements before the first heading paragraph. -/
def leadContent (L : Nat) (doc : List Elem) : List Elem :=
  doc.takeWhile (fun e => !(isHeadingElem L e))

theorem parseFold_content (L : Nat) :
    ∀ pre : List Elem, (∀ e ∈ pre, isHeadingElem L e = false) →
      ∀ (st : PState) (acc : List Elem), st.curElems = some acc →
        parseFold L true st pre = { st with curElems := some (acc ++ pre) } := by
  intro pre
  induction pre with
  | nil =>
    intro _ st acc h
    rw [parseFold_nil]
    cases st with
    | mk a b c d =>
      simp only at h
      subst h
      simp
  | cons e rest ih =>
    intro hpre st acc h
    rw [parseFold_cons, parseStep_content st (hpre e (List.mem_cons_self _ _)),
      addContent_true h e,
      ih (fun x hx => hpre x (List.mem_cons_of_mem _ hx)) _ (acc ++ [e]) rfl]
    simp

theorem parseStep_sections_mono (L : Nat) (inc : Bool) (st : PState) (e : Elem) :
    ∃ d, (parseStep L inc st e).sections = st.sections ++ d := by
  rcases hhe : isHeadingElem L e with _ | _
  · rw [parseStep_content st hhe]
    obtain ⟨ce, hce⟩ := addContent_eq inc st e
    rw [hce]
    exact ⟨[], by simp⟩
  · have hhe2 := hhe
    simp only [isHeadingElem, Bool.and_eq_true] at hhe2
    obtain ⟨hp, hsome⟩ := hhe2
    rcases hh : is_heading_style e.style e.text L with _ | ⟨lv, tx⟩
    · rw [hh] at hsome
      simp at hsome
    · rw [parseStep_heading st hp hh]
      by_cases hc : closesOut st = true
      · exact ⟨[finishSec st], by simp [hc]⟩
      · exact ⟨[], by simp [hc]⟩

theorem parseFold_sections_mono (L : Nat) (inc : Bool) (doc : List Elem) :
    ∀ st, ∃ d, (parseFold L inc st doc).sections = st.sections ++ d := by
  induction doc with
  | nil =>
    intro st
    exact ⟨[], by simp [parseFold_nil]⟩
  | cons e rest ih =>
    intro st
    obtain ⟨d1, hd1⟩ := parseStep_sections_mono L inc st e
    obtain ⟨d2, hd2⟩ := ih (parseStep L inc st e)
    exact ⟨d1 ++ d2, by rw [parseFold_cons, hd2, hd1, List.append_assoc]⟩

theorem parseFold_pos_levels (L : Nat) (doc : List Elem) :
    ∀ st : PState, 0 < st.curLevel → (∀ s ∈ st.sections, 0 < s.level) →
      0 < (parseFold L true st doc).curLevel ∧
        ∀ s ∈ (parseFold L true st doc).sections, 0 < s.level := by
  induction doc with
  | nil =>
    intro st h1 h2
    exact ⟨h1, h2⟩
  | cons e rest ih =>
    intro st h1 h2
    rw [parseFold_cons]
    apply ih
    · rcases hhe : isHeadingElem L e with _ | _
      · rw [parseStep_content st hhe]
        obtain ⟨ce, hce⟩ := addContent_eq true st e
        rw [hce]
        exact h1
      · have hhe2 := hhe
        simp only [isHeadingElem, Bool.and_eq_true] at hhe2
        obtain ⟨hp, hsome⟩ := hhe2
        rcases hh : is_heading_style e.style e.text L with _ | ⟨lv, tx⟩
        · rw [hh] at hsome
          simp at hsome
        · rw [parseStep_heading st hp hh]
          have := is_heading_style_level_pos hh
          show 0 < lv
          omega
    · rcases hhe : isHeadingElem L e with _ | _
      · rw [parseStep_content st hhe]
        obtain ⟨ce, hce⟩ := addContent_eq true st e
        rw [hce]
        exact h2
      · have hhe2 := hhe
        simp only [isHeadingElem, Bool.and_eq_true] at hhe2
        obtain ⟨hp, hsome⟩ := hhe2
        rcases hh : is_heading_style e.style e.text L with _ | ⟨lv, tx⟩
        · rw [hh] at hsome
          simp at hsome
        · rw [parseStep_heading st hp hh]
          intro s hs
          simp only at hs
          rw [if_pos (closesOut_of_pos h1)] at hs
          rcases List.mem_append.mp hs with hs2 | hs2
          · exact h2 s hs2
          · simp at hs2
            subst hs2
            rw [finishSec_level]
            exact h1

/-- A document with no content before its first heading yields only
positive-level sections: no preamble section at all. -/
theorem parse_no_preamble (L : Nat) (doc : List Elem)
    (hlead : leadContent L doc = []) :
    ∀ s ∈ parse_document_structure L true doc, 0 < s.level := by
  cases doc with
  | nil =>
    intro s hs
    exact absurd hs (List.not_mem_nil s)
  | cons e rest =>
    have hhe : isHeadingElem L e = true := by
      unfold leadContent at hlead
      rw [List.takeWhile_cons] at hlead
      rcases h : isHeadingElem L e with _ | _
      · rw [h] at hlead
        simp at hlead
      · rfl
    have hhe2 := hhe
    simp only [isHeadingElem, Bool.and_eq_true] at hhe2
    obtain ⟨hp, hsome⟩ := hhe2
    rcases hh : is_heading_style e.style e.text L with _ | ⟨lv, tx⟩
    · rw [hh] at hsome
      simp at hsome
    · have hstep : parseStep L true (initPState true) e =
          ⟨[], tx, lv, some [e]⟩ := by
        rw [parseStep_heading _ hp hh]
        have hc : closesOut (initPState true) = false := rfl
        rw [hc]
        rfl
      obtain ⟨hcur, hsec⟩ := parseFold_pos_levels L rest ⟨[], tx, lv, some [e]⟩
        (is_heading_style_level_pos hh)
        (by intro s hs; exact absurd hs (List.not_mem_nil s))
      intro s hs
      have hfold : parseFold L true (initPState true) (e :: rest) =
          parseFold L true ⟨[], tx, lv, some [e]⟩ rest := by
        rw [parseFold_cons, hstep]
      have hdrop := dropEmptyPreamble_id (parseClose_props (pInv_fold L (e :: rest)
        (initPState true) pInv_init)).2.2
      unfold parse_document_structure at hs
      rw [hdrop, hfold] at hs
      unfold parseClose at hs
      by_cases hc : closesOut (parseFold L true ⟨[], tx, lv, some [e]⟩ rest) = true
      · rw [if_pos hc] at hs
        rcases List.mem_append.mp hs with h2 | h2
        · exact hsec s h2
        · simp at h2
          subst h2
          rw [finishSec_level]
          exact hcur
      · rw [if_neg hc] at hs
        exact hsec s hs

theorem head_dropWhile_false {p : Elem → Bool} {l : List Elem} {h : Elem} {t : List Elem}
    (he : l.dropWhile p = h :: t) : p h = false := by
  induction l with
  | nil => simp [List.dropWhile] at he
  | cons a rest ih =>
    rw [List.dropWhile_cons] at he
    by_cases hp : p a = true
    · rw [if_pos hp] at he
      exact ih he
    · rw [if_neg hp] at he
      injection he with h1 _
      subst h1
      exact Bool.eq_false_iff.mpr hp

/-- A document with non-empty content before its first heading yields, as its
first extracted section, the preamble: marker text, level `0`, and exactly
that leading content as its elements. -/
theorem parse_preamble_head (L : Nat) (doc : List Elem) (x : Elem) (xs : List Elem)
    (hlead : leadContent L doc = x :: xs) :
    (parse_document_structure L true doc).head? =
      some ⟨"__PREAMBLE__", 0, some (x :: xs)⟩ := by
  have hpre : ∀ e ∈ leadContent L doc, isHeadingElem L e = false := by
    intro e he
    have := List.mem_takeWhile_imp he
    simpa using this
  have hst1 : parseFold L true (initPState true) (leadContent L doc)
      = ⟨[], "__PREAMBLE__", 0, some (x :: xs)⟩ := by
    rw [parseFold_content L (leadContent L doc) hpre (initPState true) [] rfl, hlead]
    rfl
  have hsplit : parseFold L true (initPState true) doc =
      parseFold L true ⟨[], "__PREAMBLE__", 0, some (x :: xs)⟩
        (doc.dropWhile (fun e => !(isHeadingElem L e))) := by
    conv_lhs => rw [← List.takeWhile_append_dropWhile (fun e => !(isHeadingElem L e)) doc]
    unfold parseFold
    rw [List.foldl_append]
    rw [show List.foldl (parseStep L true) (initPState true)
          (List.takeWhile (fun e => !(isHeadingElem L e)) doc)
        = parseFold L true (initPState true) (leadContent L doc) from rfl, hst1]
  have hdrop := dropEmptyPreamble_id (parseClose_props (pInv_fold L doc
    (initPState true) pInv_init)).2.2
  unfold parse_document_structure
  rw [hdrop]
  rcases hrd : doc.dropWhile (fun e => !(isHeadingElem L e)) with _ | ⟨h, rest2⟩
  · rw [hsplit, hrd, parseFold_nil]
    unfold parseClose
    rw [if_pos (show closesOut ⟨[], "__PREAMBLE__", 0, some (x :: xs)⟩ = true from rfl)]
    simp [finishSec, pyStrip_marker]
  · have hhh : isHeadingElem L h = true := by
      have := head_dropWhile_false hrd
      simpa using this
    have hhe2 := hhh
    simp only [isHeadingElem, Bool.and_eq_true] at hhe2
    obtain ⟨hp, hsome⟩ := hhe2
    rcases hh : is_heading_style h.style h.text L with _ | ⟨lv, tx⟩
    · rw [hh] at hsome
      simp at hsome
    · have hstep : parseStep L true ⟨[], "__PREAMBLE__", 0, some (x :: xs)⟩ h
          = ⟨[⟨"__PREAMBLE__", 0, some (x :: xs)⟩], tx, lv, some [h]⟩ := by
        rw [parseStep_heading _ hp hh]
        rw [show closesOut ⟨[], "__PREAMBLE__", 0, some (x :: xs)⟩ = true from rfl]
        simp [finishSec, pyStrip_marker]
      obtain ⟨d, hd⟩ := parseFold_sections_mono L true rest2
        ⟨[⟨"__PREAMBLE__", 0, some (x :: xs)⟩], tx, lv, some [h]⟩
      rw [hsplit, hrd, parseFold_cons, hstep]
      unfold parseClose
      by_cases hc : closesOut (parseFold L true
          ⟨[⟨"__PREAMBLE__", 0, some (x :: xs)⟩], tx, lv, some [h]⟩ rest2) = true
      · rw [if_pos hc, hd]
        simp
      · rw [if_neg hc, hd]
        simp

theorem lookup_sourceMap_mem {secs : List Sec} {t : String} {s : Sec}
    (h : lookupSec (sourceMap secs) t = some s) : s ∈ secs := by
  have hne := (lookup_sourceMap_text h).2
  rw [lookup_sourceMap_eq_find secs t hne] at h
  exact List.mem_of_find?_eq_some h

theorem filter_marker_eq_nil {secs : List Sec}
    (h : ∀ s ∈ secs, s.text ≠ "__PREAMBLE__") :
    secs.filter (fun s => s.text == "__PREAMBLE__") = [] := by
  rw [List.filter_eq_nil_iff]
  intro s hs
  simp only [beq_iff_eq]
  exact h s hs

theorem filter_marker_head {s0 : Sec} {rest : List Sec}
    (h0 : s0.text = "__PREAMBLE__") (h : ∀ s ∈ rest, s.text ≠ "__PREAMBLE__") :
    (s0 :: rest).filter (fun s => s.text == "__PREAMBLE__") = [s0] := by
  rw [List.filter_cons, if_pos (by simp [h0]), filter_marker_eq_nil h]

/-- C6 as amended: extraction never produces an empty preamble section (every
level-0 section carries the marker text and a non-empty element list), and —
provided no genuine heading section carries the reserved text `__PREAMBLE__`
(such a heading hijacks the preamble slot, last occurrence winning) — the
content before the first heading opens every reorganized plan exactly when it
is non-empty: a non-empty lead becomes the plan's first scheduled section,
and an empty lead leaves the plan free of level-0 sections. -/
theorem C6_preamble (L : Nat) (doc : List Elem) (target enum : List String)
    (mp : MissingPolicy) (up : UnmatchedPolicy) (p : List Sec)
    (hclean : ∀ s ∈ parse_document_structure L true doc,
      0 < s.level → s.text ≠ "__PREAMBLE__")
    (hp : run_reorganize_plan target (parse_document_structure L true doc) mp up enum
      = some p) :
    (∀ s ∈ parse_document_structure L true doc, s.level = 0 →
      s.text = "__PREAMBLE__" ∧ ∃ e l, s.elements = some (e :: l)) ∧
    (∀ e es, leadContent L doc = e :: es →
      p.head? = some ⟨"__PREAMBLE__", 0, some (e :: es)⟩) ∧
    (leadContent L doc = [] → ∀ s ∈ p, 0 < s.level) := by
  obtain ⟨hm, hmk, hel⟩ := parse_inc_props L doc
  refine ⟨fun s hs h0 => ⟨hmk s hs h0, hel s hs⟩, ?_, ?_⟩
  · intro e es hleadc
    have hhead := parse_preamble_head L doc e es hleadc
    have hsecs : ∃ rest, parse_document_structure L true doc
        = (⟨"__PREAMBLE__", 0, some (e :: es)⟩ : Sec) :: rest := by
      rcases hh2 : parse_document_structure L true doc with _ | ⟨s0, rest⟩
      · rw [hh2] at hhead
        simp at hhead
      · rw [hh2] at hhead
        rw [List.head?_cons] at hhead
        injection hhead with hhead
        exact ⟨rest, by rw [hhead]⟩
    obtain ⟨rest, hsecs⟩ := hsecs
    have hrest_pos : ∀ s ∈ rest, 0 < s.level := by
      rw [hsecs] at hm
      exact hm
    have hrest_mk : ∀ s ∈ rest, s.text ≠ "__PREAMBLE__" := by
      intro s hs
      exact hclean s (by rw [hsecs]; exact List.mem_cons_of_mem _ hs) (hrest_pos s hs)
    have hspr : sourcePreamble (parse_document_structure L true doc)
        = some ⟨"__PREAMBLE__", 0, some (e :: es)⟩ := by
      rw [sourcePreamble_eq, hsecs, filter_marker_head rfl hrest_mk]
      rfl
    have hpre_out : preambleOut (parse_document_structure L true doc)
        = [⟨"__PREAMBLE__", 0, some (e :: es)⟩] := by
      unfold preambleOut
      rw [hspr]
    rw [run_plan_eq_some hp, hpre_out]
    simp
  · intro hlead0 s hs
    have hpos := parse_no_preamble L doc hlead0
    have hnomk : ∀ s2 ∈ parse_document_structure L true doc,
        s2.text ≠ "__PREAMBLE__" :=
      fun s2 hs2 => hclean s2 hs2 (hpos s2 hs2)
    rw [run_plan_eq_some hp] at hs
    rcases List.mem_append.mp hs with hs2 | hs2
    · rcases List.mem_append.mp hs2 with hs3 | hs3
      · have hnone : sourcePreamble (parse_document_structure L true doc) = none := by
          rw [sourcePreamble_eq, filter_marker_eq_nil hnomk]
          rfl
        unfold preambleOut at hs3
        rw [hnone] at hs3
        simp at hs3
      · obtain ⟨t2, _, hl⟩ := planMatched_mem hs3
        exact hpos s (lookup_sourceMap_mem hl)
    · obtain ⟨_, _, hl⟩ := appendix_text_facts hs2
      exact hpos s (lookup_sourceMap_mem hl)

/-- C6 counterexample: the document has non-empty content before its first
heading, but that heading's text is the reserved marker `__PREAMBLE__`, so it
overrides the real preamble: the output is exactly the heading's own
elements, and the leading content appears nowhere — although it is
non-empty. -/
theorem C6_counterexample :
    leadContent 6 [eBody "pre", eHP] = [eBody "pre"] ∧
    run_reorganize_out ["Z"] (parse_document_structure 6 true [eBody "pre", eHP])
        MissingPolicy.ignore UnmatchedPolicy.append [] = some [eHP] ∧
    eHP ≠ eBody "pre" := by
  exact ⟨by decide, by decide, by decide⟩

theorem C6_witness :
    (∀ s ∈ parse_document_structure 6 true [eBody "pre", eH1 "A"],
      0 < s.level → s.text ≠ "__PREAMBLE__") ∧
    run_reorganize_plan ["A"] (parse_document_structure 6 true [eBody "pre", eH1 "A"])
        MissingPolicy.warn UnmatchedPolicy.append []
      = some [⟨"__PREAMBLE__", 0, some [eBody "pre"]⟩, ⟨"A", 1, some [eH1 "A"]⟩] ∧
    ([⟨"__PREAMBLE__", 0, some [eBody "pre"]⟩,
        (⟨"A", 1, some [eH1 "A"]⟩ : Sec)] : List Sec).head?
      = some ⟨"__PREAMBLE__", 0, some [eBody "pre"]⟩ := by
  have hclean : ∀ s ∈ parse_document_structure 6 true [eBody "pre", eH1 "A"],
      0 < s.level → s.text ≠ "__PREAMBLE__" := by decide
  have hp : run_reorganize_plan ["A"]
      (parse_document_structure 6 true [eBody "pre", eH1 "A"])
      MissingPolicy.warn UnmatchedPolicy.append []
      = some [⟨"__PREAMBLE__", 0, some [eBody "pre"]⟩, ⟨"A", 1, some [eH1 "A"]⟩] := by
    decide
  refine ⟨hclean, hp, ?_⟩
  exact (C6_preamble 6 [eBody "pre", eH1 "A"] ["A"] [] MissingPolicy.warn
    UnmatchedPolicy.append _ hclean hp).2.1 (eBody "pre") [] (by decide)

theorem find?_text_of_nodup {l : List Sec} (hnd : (l.map Sec.text).Nodup)
    {s : Sec} (hs : s ∈ l) : l.find? (fun s2 => s2.text == s.text) = some s := by
  induction l with
  | nil => simp at hs
  | cons a rest ih =>
    rw [List.map_cons, List.nodup_cons] at hnd
    rcases List.mem_cons.mp hs with h | h
    · subst h
      simp [List.find?_cons]
    · have hne : a.text ≠ s.text := by
        intro he
        exact hnd.1 (by rw [he]; exact List.mem_map.mpr ⟨s, h, rfl⟩)
      rw [List.find?_cons, show (a.text == s.text) = false from beq_eq_false_iff_ne.mpr hne]
      exact ih hnd.2 h

theorem filterMap_lookup_of_each {f : String → Option Sec} {l : List Sec}
    (h : ∀ s ∈ l, f s.text = some s) : (l.map Sec.text).filterMap f = l := by
  induction l with
  | nil => rfl
  | cons a rest ih =>
    simp only [List.map_cons, List.filterMap_cons, h a (List.mem_cons_self _ _)]
    rw [ih (fun s hs => h s (List.mem_cons_of_mem _ hs))]

/-- The extracted section list is its positive-level part, possibly preceded
by one preamble section (level 0, marker text, non-empty elements). -/
theorem parse_shape (L : Nat) (doc : List Elem) :
    parse_document_structure L true doc
      = (parse_document_structure L true doc).filter (fun s => decide (0 < s.level)) ∨
    ∃ s0 : Sec, s0.level = 0 ∧ s0.text = "__PREAMBLE__" ∧
      (∃ e l, s0.elements = some (e :: l)) ∧
      parse_document_structure L true doc
        = s0 :: (parse_document_structure L true doc).filter
            (fun s => decide (0 < s.level)) := by
  obtain ⟨hm, hmk, hel⟩ := parse_inc_props L doc
  rcases hh2 : parse_document_structure L true doc with _ | ⟨s0, rest⟩
  · left
    rfl
  · rw [hh2] at hm hmk hel
    have hrest : ∀ s ∈ rest, 0 < s.level := hm
    have hfr : rest.filter (fun s => decide (0 < s.level)) = rest :=
      List.filter_eq_self.mpr (fun s hs => by simp [hrest s hs])
    rcases Nat.eq_zero_or_pos s0.level with h0l | h0l
    · right
      refine ⟨s0, h0l, hmk s0 (List.mem_cons_self _ _) h0l,
        hel s0 (List.mem_cons_self _ _), ?_⟩
      rw [List.filter_cons, if_neg (by simp [h0l]), hfr]
    · left
      rw [List.filter_cons, if_pos (by simp [h0l]), hfr]

/-- C7 as amended: for a source document whose extracted heading texts are
pairwise distinct and none of which is the reserved marker `__PREAMBLE__`,
reorganizing against the source's own heading order under the default
policies schedules exactly the extracted sections in their original document
order. -/
theorem C7_idempotent (L : Nat) (doc : List Elem) (enum : List String)
    (hnd : (((parse_document_structure L true doc).filter
        (fun s => decide (0 < s.level))).map Sec.text).Nodup)
    (hmkf : ∀ s ∈ parse_document_structure L true doc,
      0 < s.level → s.text ≠ "__PREAMBLE__")
    (hv : validEnum (parse_document_structure L true doc)
      (((parse_document_structure L true doc).filter
        (fun s => decide (0 < s.level))).map Sec.text) enum) :
    run_reorganize_plan
        (((parse_document_structure L true doc).filter
          (fun s => decide (0 < s.level))).map Sec.text)
        (parse_document_structure L true doc)
        MissingPolicy.warn UnmatchedPolicy.append enum
      = some (parse_document_structure L true doc) := by
  have hfull : ∀ s ∈ (parse_document_structure L true doc).filter
      (fun s => decide (0 < s.level)),
      lookupSec (sourceMap (parse_document_structure L true doc)) s.text = some s := by
    intro s hs
    have hsm := List.mem_filter.mp hs
    have hlv : 0 < s.level := by simpa using hsm.2
    have hne : s.text ≠ "__PREAMBLE__" := hmkf s hsm.1 hlv
    rw [lookup_sourceMap_eq_find _ _ hne]
    rcases parse_shape L doc with hsh | ⟨s0, h0l, h0mk, _, hsh⟩
    · have hnd2 : ((parse_document_structure L true doc).map Sec.text).Nodup := by
        rw [hsh]
        exact hnd
      exact find?_text_of_nodup hnd2 hsm.1
    · rw [hsh, List.find?_cons, show (s0.text == s.text) = false from
        beq_eq_false_iff_ne.mpr (by rw [h0mk]; exact fun hcc => hne hcc.symm)]
      exact find?_text_of_nodup hnd hs
  have henum : enum = [] := by
    rcases henum0 : enum with _ | ⟨h0, en⟩
    · rfl
    · exfalso
      have hm0 := (hv.2 h0).mp (by rw [henum0]; exact List.mem_cons_self _ _)
      obtain ⟨hk, hnt⟩ := hm0
      have hsome := (lookupSec_isSome_iff (sourceMap (parse_document_structure L true doc))
        h0).mpr hk
      rcases hlk : lookupSec (sourceMap (parse_document_structure L true doc)) h0
        with _ | s
      · rw [hlk] at hsome
        simp at hsome
      · have hmem : s ∈ parse_document_structure L true doc := lookup_sourceMap_mem hlk
        obtain ⟨hte, hne⟩ := lookup_sourceMap_text hlk
        have hlv : 0 < s.level := by
          rcases Nat.eq_zero_or_pos s.level with h0l | h0l
          · have := (parse_inc_props L doc).2.1 s hmem h0l
            rw [hte] at this
            exact absurd this hne
          · exact h0l
        have hmemt : s.text ∈ ((parse_document_structure L true doc).filter
            (fun s => decide (0 < s.level))).map Sec.text :=
          List.mem_map.mpr ⟨s, List.mem_filter.mpr ⟨hmem, by simp [hlv]⟩, rfl⟩
        rw [hte] at hmemt
        exact hnt hmemt
  have hmatch : planMatched (sourceMap (parse_document_structure L true doc))
      (((parse_document_structure L true doc).filter
        (fun s => decide (0 < s.level))).map Sec.text) []
      = (parse_document_structure L true doc).filter (fun s => decide (0 < s.level)) := by
    rw [planMatched_eq_filterMap _ _ [] hnd (fun t _ => List.not_mem_nil t)]
    exact filterMap_lookup_of_each hfull
  unfold run_reorganize_plan
  rw [if_neg (by rintro ⟨h, _⟩; exact absurd h (by decide)), hmatch, henum]
  have happ : appendixOut (parse_document_structure L true doc) []
      UnmatchedPolicy.append = [] := rfl
  rw [happ, List.append_nil]
  rcases parse_shape L doc with hsh | ⟨s0, h0l, h0mk, hel0, hsh⟩
  · have hposall : ∀ s ∈ parse_document_structure L true doc, 0 < s.level := by
      intro s hs
      rw [hsh] at hs
      simpa using (List.mem_filter.mp hs).2
    have hnone : sourcePreamble (parse_document_structure L true doc) = none := by
      rw [sourcePreamble_eq,
        filter_marker_eq_nil (fun s hs2 => hmkf s hs2 (hposall s hs2))]
      rfl
    have hpre : preambleOut (parse_document_structure L true doc) = [] := by
      unfold preambleOut
      rw [hnone]
    rw [hpre, List.nil_append]
    conv_rhs => rw [hsh]
  · have hrest_mk : ∀ s ∈ (parse_document_structure L true doc).filter
        (fun s => decide (0 < s.level)), s.text ≠ "__PREAMBLE__" := by
      intro s hs
      have h2 := List.mem_filter.mp hs
      exact hmkf s h2.1 (by simpa using h2.2)
    have hspr : sourcePreamble (parse_document_structure L true doc) = some s0 := by
      rw [sourcePreamble_eq, hsh, filter_marker_head h0mk hrest_mk]
      rfl
    have hpre : preambleOut (parse_document_structure L true doc) = [s0] := by
      unfold preambleOut
      rw [hspr]
      show (match s0.elements with
            | some (_ :: _) => [s0]
            | _ => []) = [s0]
      obtain ⟨e, l, he⟩ := hel0
      rw [he]
    rw [hpre]
    conv_rhs => rw [hsh]
    rw [List.singleton_append]

/-- A paragraph styled `Heading 2` with the given text. -/
def eH2 (s : String) : Elem := ⟨true, some "Heading 2", s⟩

/-- C7 counterexample: the extracted headings `A`, `__PREAMBLE__` are
pairwise distinct, the target is the source's own heading order, the
policies are the defaults — yet the plan is the two sections swapped, because
the heading literally titled `__PREAMBLE__` is routed to the preamble slot
and scheduled first. -/
theorem C7_counterexample :
    (((parse_document_structure 6 true [eH1 "A", eBody "a", eHP, eBody "two"]).filter
        (fun s => decide (0 < s.level))).map Sec.text).Nodup ∧
    validEnum (parse_document_structure 6 true [eH1 "A", eBody "a", eHP, eBody "two"])
      (((parse_document_structure 6 true [eH1 "A", eBody "a", eHP, eBody "two"]).filter
        (fun s => decide (0 < s.level))).map Sec.text) [] ∧
    run_reorganize_plan
        (((parse_document_structure 6 true [eH1 "A", eBody "a", eHP, eBody "two"]).filter
          (fun s => decide (0 < s.level))).map Sec.text)
        (parse_document_structure 6 true [eH1 "A", eBody "a", eHP, eBody "two"])
        MissingPolicy.warn UnmatchedPolicy.append []
      = some [⟨"__PREAMBLE__", 1, some [eHP, eBody "two"]⟩, secA] ∧
    some [(⟨"__PREAMBLE__", 1, some [eHP, eBody "two"]⟩ : Sec), secA]
      ≠ some (parse_document_structure 6 true [eH1 "A", eBody "a", eHP, eBody "two"]) := by
  refine ⟨by decide, ?_, by decide, by decide⟩
  exact @validEnum_of_keys
    (parse_document_structure 6 true [eH1 "A", eBody "a", eHP, eBody "two"]) _ [] ["A"]
    (by decide) (by decide) (by decide) (by decide)

theorem C7_witness :
    ((((parse_document_structure 6 true
        [eBody "p0", eH1 "A", eBody "a", eH2 "B"]).filter
          (fun s => decide (0 < s.level))).map Sec.text).Nodup ∧
      (∀ s ∈ parse_document_structure 6 true [eBody "p0", eH1 "A", eBody "a", eH2 "B"],
        0 < s.level → s.text ≠ "__PREAMBLE__") ∧
      validEnum (parse_document_structure 6 true [eBody "p0", eH1 "A", eBody "a", eH2 "B"])
        (((parse_document_structure 6 true
          [eBody "p0", eH1 "A", eBody "a", eH2 "B"]).filter
            (fun s => decide (0 < s.level))).map Sec.text) []) ∧
    run_reorganize_plan
        (((parse_document_structure 6 true
          [eBody "p0", eH1 "A", eBody "a", eH2 "B"]).filter
            (fun s => decide (0 < s.level))).map Sec.text)
        (parse_document_structure 6 true [eBody "p0", eH1 "A", eBody "a", eH2 "B"])
        MissingPolicy.warn UnmatchedPolicy.append []
      = some (parse_document_structure 6 true [eBody "p0", eH1 "A", eBody "a", eH2 "B"]) := by
  have h1 : (((parse_document_structure 6 true
      [eBody "p0", eH1 "A", eBody "a", eH2 "B"]).filter
        (fun s => decide (0 < s.level))).map Sec.text).Nodup := by decide
  have h2 : ∀ s ∈ parse_document_structure 6 true [eBody "p0", eH1 "A", eBody "a", eH2 "B"],
      0 < s.level → s.text ≠ "__PREAMBLE__" := by decide
  have h3 : validEnum (parse_document_structure 6 true
      [eBody "p0", eH1 "A", eBody "a", eH2 "B"])
      (((parse_document_structure 6 true
        [eBody "p0", eH1 "A", eBody "a", eH2 "B"]).filter
          (fun s => decide (0 < s.level))).map Sec.text) [] :=
    @validEnum_of_keys _ _ [] ["A", "B"] (by decide) (by decide) (by decide) (by decide)
  exact ⟨⟨h1, h2, h3⟩, C7_idempotent 6 _ [] h1 h2 h3⟩

/-- C8 as amended: a target heading matches a source section iff the target
string — used literally, not trimmed — equals the edge-stripped text of some
heading paragraph of the source document; letter case and internal
whitespace are compared exactly (targets equal to the reserved marker never
match). -/
theorem C8_matching (L : Nat) (doc : List Elem) (t : String)
    (ht : t ≠ "__PREAMBLE__") :
    (lookupSec (sourceMap (parse_document_structure L true doc)) t).isSome = true ↔
      ∃ q ∈ docHeadings L doc, pyStrip q.1 = t := by
  rw [lookup_sourceMap_eq_find _ _ ht, List.find?_isSome]
  constructor
  · rintro ⟨s, hs, hp⟩
    have hst : s.text = t := by simpa using hp
    have hlv : 0 < s.level := by
      rcases Nat.eq_zero_or_pos s.level with h0l | h0l
      · have := (parse_inc_props L doc).2.1 s hs h0l
        rw [hst] at this
        exact absurd this ht
      · exact h0l
    have hmem : (s.text, s.level) ∈ (parse_document_structure L true doc).filterMap
        (fun s => if 0 < s.level then some (s.text, s.level) else none) := by
      apply List.mem_filterMap.mpr
      exact ⟨s, hs, by rw [if_pos hlv]⟩
    rw [parse_heading_pairs] at hmem
    obtain ⟨q, hq, he⟩ := List.mem_map.mp hmem
    refine ⟨q, hq, ?_⟩
    have h1 : pyStrip q.1 = s.text := by
      have := congrArg Prod.fst he
      simpa using this
    exact h1.trans hst
  · rintro ⟨q, hq, he⟩
    have hmem : (pyStrip q.1, q.2) ∈ (docHeadings L doc).map
        (fun q => (pyStrip q.1, q.2)) :=
      List.mem_map.mpr ⟨q, hq, rfl⟩
    rw [← parse_heading_pairs] at hmem
    obtain ⟨s, hs, hsome⟩ := List.mem_filterMap.mp hmem
    by_cases hlv : 0 < s.level
    · rw [if_pos hlv] at hsome
      simp only [Option.some.injEq, Prod.mk.injEq] at hsome
      obtain ⟨h1, _⟩ := hsome
      refine ⟨s, hs, ?_⟩
      simp [h1, he]
    · rw [if_neg hlv] at hsome
      cases hsome

/-- C8 counterexample: the source heading `A` and the target heading `" A"`
are equal after trimming each, which the claim says suffices for a match —
but the code never trims the target, so the lookup misses, while the
untrimmed literal `"A"` matches. -/
theorem C8_counterexample :
    pyStrip " A" = pyStrip "A" ∧
    lookupSec (sourceMap (parse_document_structure 6 true [eH1 "A"])) " A" = none ∧
    lookupSec (sourceMap (parse_document_structure 6 true [eH1 "A"])) "A"
      = some ⟨"A", 1, some [eH1 "A"]⟩ := by
  exact ⟨by decide, by decide, by decide⟩

theorem C8_witness :
    ("A" ≠ "__PREAMBLE__") ∧
    ((lookupSec (sourceMap (parse_document_structure 6 true [eH1 "A"])) "A").isSome = true ↔
      ∃ q ∈ docHeadings 6 [eH1 "A"], pyStrip q.1 = "A") := by
  exact ⟨by decide, C8_matching 6 [eH1 "A"] "A" (by decide)⟩

/-! ## TOC builder (`build_nested_toc`), serialization, and the loader's
flattener (`extract_headings`) -/

/-- A node of the nested TOC built by `build_nested_toc`: the dict
`{'heading': ..., 'level': ...}` plus its `children` list (possibly empty;
presence of the `children` key in the written YAML is decided at
serialization, mirroring `cleanup_empty_children`). -/
inductive TocNode where
  | mk (heading : String) (level : Nat) (children : List TocNode)

def TocNode.heading : TocNode → String
  | .mk h _ _ => h

def TocNode.level : TocNode → Nat
  | .mk _ l _ => l

def TocNode.children : TocNode → List TocNode
  | .mk _ _ c => c

/-- One entry of the builder's explicit stack: the level paired with the
still-open node's data.  The source keeps `(level, sibling-list-reference)`
pairs and mutates shared lists in place; functionally, a frame accumulates
the open node's children and its attachment to the parent is deferred to the
moment the frame is popped. -/
structure Frame where
  level : Nat
  heading : String
  children : List TocNode

def nodeOf (f : Frame) : TocNode := .mk f.heading f.level f.children

/-- `while stack and stack[-1][0] >= level: stack.pop()`.  Closing a popped
frame attaches its finished node as the last child of the frame below, or as
a new root when the stack has emptied.  The structural fuel is the loop
bound: the stack length. -/
def popFrames : Nat → Nat → List Frame → List TocNode → List Frame × List TocNode
  | 0, _, stack, roots => (stack, roots)
  | _ + 1, _, [], roots => ([], roots)
  | fuel + 1, lvl, f :: fs, roots =>
    if lvl ≤ f.level then
      match fs with
      | [] => popFrames fuel lvl [] (roots ++ [nodeOf f])
      | g :: gs => popFrames fuel lvl
          ({ g with children := g.children ++ [nodeOf f] } :: gs) roots
    else (f :: fs, roots)

/-- One iteration of `build_nested_toc`'s loop; entries with `level == 0`
(the preamble) are skipped. -/
def buildStep (st : List Frame × List TocNode) (sec : String × Nat) :
    List Frame × List TocNode :=
  if sec.2 = 0 then st
  else
    let pr := popFrames st.1.length sec.2 st.1 st.2
    (⟨sec.2, sec.1, []⟩ :: pr.1, pr.2)

/-- `build_nested_toc(flat_sections)` over the flat (text, level) pairs.  The
final full pop materializes the still-open right spine, which the source had
already attached through shared list references. -/
def build_nested_toc (flat : List (String × Nat)) : List TocNode :=
  let st := flat.foldl buildStep ([], [])
  (popFrames st.1.length 0 st.1 st.2).2

/-- Sanity: the nested-outline example of the specification. -/
theorem build_nested_toc_example :
    build_nested_toc [("Ch1", 1), ("Sec1.1", 2), ("Sec1.2", 2), ("Ch2", 1)]
      = [TocNode.mk "Ch1" 1 [TocNode.mk "Sec1.1" 2 [], TocNode.mk "Sec1.2" 2 []],
         TocNode.mk "Ch2" 1 []] := rfl

/-- Sanity: a deeper level followed by an intermediate one nests under the
nearest strictly shallower open ancestor. -/
theorem build_nested_toc_skip_example :
    build_nested_toc [("A", 1), ("B", 3), ("C", 2)]
      = [TocNode.mk "A" 1 [TocNode.mk "B" 3 [], TocNode.mk "C" 2 []]] := rfl

/-- The YAML values in play (other scalar kinds never occur in the structures
the tool writes, and in read structures they fall into the skipped
`unrecognized item` case, which the catch-all constructor arms model). -/
inductive Yaml where
  | str (s : String)
  | nat (n : Nat)
  | list (items : List Yaml)
  | obj (fields : List (String × Yaml))

mutual
/-- The mapping `yaml.safe_dump(..., sort_keys=False)` writes for one node:
keys in insertion order `heading`, `level`, then `children`.  The node dicts
always carry a `children` list, and `cleanup_empty_children` deletes exactly
the empty ones before dumping, so the serialized `children` key is present
iff the node has children.  The `level` key is never removed. -/
def serializeNode : TocNode → Yaml
  | .mk h l cs =>
    .obj ([("heading", .str h), ("level", .nat l)] ++
      (match cs with
       | [] => []
       | _ => [("children", .list (serializeForest cs))]))
/-- Serialization of a sibling list. -/
def serializeForest : List TocNode → List Yaml
  | [] => []
  | n :: ns => serializeNode n :: serializeForest ns
end

/-- Python dict key lookup (`'k' in d` / `d['k']`) on a field list; the dicts
in play never repeat a key. -/
def lookupField (k : String) : List (String × Yaml) → Option Yaml
  | [] => none
  | (k2, v) :: rest => if k2 = k then some v else lookupField k rest

theorem lookupField_sizeOf {k : String} {fs : List (String × Yaml)} {v : Yaml}
    (h : lookupField k fs = some v) : sizeOf v < sizeOf fs := by
  induction fs with
  | nil => simp [lookupField] at h
  | cons kv rest ih =>
    obtain ⟨k2, v2⟩ := kv
    by_cases hk : k2 = k
    · rw [lookupField, if_pos hk] at h
      injection h with h
      subst h
      simp only [List.cons.sizeOf_spec, Prod.mk.sizeOf_spec]
      omega
    · rw [lookupField, if_neg hk] at h
      have := ih h
      simp only [List.cons.sizeOf_spec, Prod.mk.sizeOf_spec]
      omega

mutual
/-- One item of the `toc` list in `extract_headings`: a bare string is a
heading; a mapping with a `heading` key contributes that value, then the
traversal recurses into a list-valued `children`; any other shape is
reported as unrecognized and skipped. -/
def extractItem : Yaml → List Yaml
  | .str s => [.str s]
  | .obj fields =>
    match h1 : lookupField "heading" fields with
    | some hv =>
      hv :: (match h2 : lookupField "children" fields with
             | some (.list cs) => extractList cs
             | _ => [])
    | none => []
  | _ => []
  termination_by y => sizeOf y
  decreasing_by
  · simp_wf
    have h3 := lookupField_sizeOf h2
    simp only [Yaml.list.sizeOf_spec] at h3
    omega
/-- `extract_headings` over an item list: pre-order, parents before
children. -/
def extractList : List Yaml → List Yaml
  | [] => []
  | item :: rest => extractItem item ++ extractList rest
  termination_by l => sizeOf l
  decreasing_by
  all_goals simp_wf
  all_goals omega
end

/-! ## C2: shape of the serialized nodes -/

mutual
/-- Spec-side shape predicate for one serialized node (amended to what the
code writes): an object whose fields are exactly `heading` (a string) and
`level` (a number), followed by a `children` field holding a non-empty,
recursively well-shaped list exactly when the node has children.  The
specification instead promises no `level` field; this predicate records the
shape actually produced. -/
def levelNodeShape : Yaml → Bool
  | .obj [("heading", .str _), ("level", .nat _)] => true
  | .obj [("heading", .str _), ("level", .nat _), ("children", .list cs)] =>
      (!cs.isEmpty) && levelForestShape cs
  | _ => false
/-- Shape predicate for a serialized sibling list. -/
def levelForestShape : List Yaml → Bool
  | [] => true
  | n :: ns => levelNodeShape n && levelForestShape ns
end

mutual
/-- Every node the builder produces serializes to the well-shaped form:
fields `heading`, `level`, and `children` iff non-empty. -/
theorem serializeNode_shape : ∀ n : TocNode, levelNodeShape (serializeNode n) = true
  | .mk h l [] => by
      simp [serializeNode, levelNodeShape]
  | .mk h l (c :: cs) => by
      have ih := serializeForest_shape (c :: cs)
      simp only [serializeForest] at ih
      simp [serializeNode, serializeForest, levelNodeShape, ih]
/-- Sibling-list version of `serializeNode_shape`. -/
theorem serializeForest_shape : ∀ ns : List TocNode, levelForestShape (serializeForest ns) = true
  | [] => by simp [serializeForest, levelForestShape]
  | n :: ns => by
      have h1 := serializeNode_shape n
      have h2 := serializeForest_shape ns
      simp [serializeForest, levelForestShape, h1, h2]
end

/-- C2 (as written, refuted): the claim says a serialized node carries no
`level` field.  In fact the single-heading document already serializes to an
object that does carry a `level` field: `lookupField "level"` on its field
list succeeds. -/
theorem C2_counterexample :
    serializeForest (build_nested_toc [("Ch1", 1)])
      = [Yaml.obj [("heading", Yaml.str "Ch1"), ("level", Yaml.nat 1)]] ∧
    lookupField "level" [("heading", Yaml.str "Ch1"), ("level", Yaml.nat 1)]
      = some (Yaml.nat 1) :=
  ⟨rfl, rfl⟩

/-- C2 (amended): for every flat heading list, every node of the serialized
nested TOC forest is an object with exactly the fields `heading` (a string)
and `level` (a number), plus a `children` field (a non-empty, recursively
well-shaped list) exactly when the node has children.  In particular the
`level` field IS retained in the serialized output: `build_nested_toc` keeps
the `level` key in every node dict and `cleanup_empty_children` deletes only
empty `children` keys, so `yaml.safe_dump` writes `level` on every node. -/
theorem C2_level_retained (flat : List (String × Nat)) :
    levelForestShape (serializeForest (build_nested_toc flat)) = true :=
  serializeForest_shape (build_nested_toc flat)

/-! ## C3: round trip builder → serializer → loader flattener -/

mutual
/-- Pre-order flattening of one built node: its heading, then its
descendants (the order `extract_headings` visits). -/
def flattenNode : TocNode → List String
  | .mk h _ cs => h :: flattenForest cs
/-- Pre-order flattening of a sibling list. -/
def flattenForest : List TocNode → List String
  | [] => []
  | n :: ns => flattenNode n ++ flattenForest ns
end

theorem flattenForest_append (xs ys : List TocNode) :
    flattenForest (xs ++ ys) = flattenForest xs ++ flattenForest ys := by
  induction xs with
  | nil => simp [flattenForest]
  | cons n ns ih => simp [flattenForest, ih]

mutual
/-- Feeding a serialized node to the loader's traversal recovers exactly
that node's pre-order heading list (as the YAML values appended). -/
theorem extract_serializeNode : ∀ n : TocNode,
    extractItem (serializeNode n) = (flattenNode n).map Yaml.str
  | .mk h l [] => by
      simp [serializeNode, extractItem, lookupField, flattenNode, flattenForest]
  | .mk h l (c :: cs) => by
      have ih := extract_serializeForest (c :: cs)
      simp [serializeNode, extractItem, lookupField, flattenNode, ih]
/-- Sibling-list version of `extract_serializeNode`. -/
theorem extract_serializeForest : ∀ ns : List TocNode,
    extractList (serializeForest ns) = (flattenForest ns).map Yaml.str
  | [] => by simp [serializeForest, extractList, flattenForest]
  | n :: ns => by
      have h1 := extract_serializeNode n
      have h2 := extract_serializeForest ns
      simp [serializeForest, extractList, flattenForest, h1, h2]
end

/-- The pre-order heading list encoded by the open stack: frames from the
bottom of the stack (outermost open node) to the top, each contributing its
heading and the already-attached descendants. -/
def stackFlat : List Frame → List String
  | [] => []
  | f :: fs => stackFlat fs ++ (f.heading :: flattenForest f.children)

/-- The pre-order heading list encoded by a whole builder state: finished
roots first, then the right spine still open on the stack. -/
def flatOf (st : List Frame × List TocNode) : List String :=
  flattenForest st.2 ++ stackFlat st.1

theorem flattenNode_nodeOf (f : Frame) :
    flattenNode (nodeOf f) = f.heading :: flattenForest f.children := rfl

/-- Popping frames only moves material between stack and roots: the encoded
pre-order heading list is unchanged. -/
theorem popFrames_flatOf : ∀ (fuel lvl : Nat) (stack : List Frame)
    (roots : List TocNode), stack.length ≤ fuel →
    flatOf (popFrames fuel lvl stack roots) = flatOf (stack, roots) := by
  intro fuel
  induction fuel with
  | zero =>
    intro lvl stack roots hle
    have : stack = [] := List.length_eq_zero.mp (Nat.le_zero.mp hle)
    subst this
    rfl
  | succ fuel ih =>
    intro lvl stack roots hle
    cases stack with
    | nil => rfl
    | cons f fs =>
      have hlenfs : fs.length ≤ fuel := by simpa using hle
      clear hle
      cases fs with
      | nil =>
        have hunf : popFrames (fuel + 1) lvl [f] roots
            = (if lvl ≤ f.level then popFrames fuel lvl [] (roots ++ [nodeOf f])
              else ([f], roots)) := rfl
        rw [hunf]
        by_cases hcmp : lvl ≤ f.level
        · rw [if_pos hcmp, ih lvl [] (roots ++ [nodeOf f]) (by simp)]
          simp [flatOf, stackFlat, flattenForest_append, flattenForest,
            flattenNode_nodeOf]
        · rw [if_neg hcmp]
      | cons g gs =>
        have hunf : popFrames (fuel + 1) lvl (f :: g :: gs) roots
            = (if lvl ≤ f.level then popFrames fuel lvl
                ({ g with children := g.children ++ [nodeOf f] } :: gs) roots
              else (f :: g :: gs, roots)) := rfl
        rw [hunf]
        by_cases hcmp : lvl ≤ f.level
        · have hlen : (({ g with children := g.children ++ [nodeOf f] } : Frame)
              :: gs).length ≤ fuel := by
            simpa using hlenfs
          rw [if_pos hcmp, ih lvl _ roots hlen]
          simp [flatOf, stackFlat, flattenForest_append, flattenForest,
            flattenNode_nodeOf]
        · rw [if_neg hcmp]

/-- The final pop with level 0 empties the stack (every frame's level is
`≥ 0`), given enough fuel. -/
theorem popFrames_zero_stack : ∀ (fuel : Nat) (stack : List Frame)
    (roots : List TocNode), stack.length ≤ fuel →
    (popFrames fuel 0 stack roots).1 = [] := by
  intro fuel
  induction fuel with
  | zero =>
    intro stack roots hle
    have : stack = [] := List.length_eq_zero.mp (Nat.le_zero.mp hle)
    subst this
    rfl
  | succ fuel ih =>
    intro stack roots hle
    cases stack with
    | nil => rfl
    | cons f fs =>
      have hlenfs : fs.length ≤ fuel := by simpa using hle
      clear hle
      cases fs with
      | nil =>
        have hunf : popFrames (fuel + 1) 0 [f] roots
            = (if 0 ≤ f.level then popFrames fuel 0 [] (roots ++ [nodeOf f])
              else ([f], roots)) := rfl
        rw [hunf, if_pos (Nat.zero_le _)]
        exact ih [] _ (by simp)
      | cons g gs =>
        have hunf : popFrames (fuel + 1) 0 (f :: g :: gs) roots
            = (if 0 ≤ f.level then popFrames fuel 0
                ({ g with children := g.children ++ [nodeOf f] } :: gs) roots
              else (f :: g :: gs, roots)) := rfl
        rw [hunf, if_pos (Nat.zero_le _)]
        exact ih _ _ (by simpa using hlenfs)

/-- One builder iteration appends the new heading to the encoded pre-order
list when its level is positive and leaves it unchanged when the level is 0
(the preamble entry is skipped). -/
theorem buildStep_flatOf (st : List Frame × List TocNode) (sec : String × Nat) :
    flatOf (buildStep st sec)
      = flatOf st ++ (if sec.2 = 0 then [] else [sec.1]) := by
  by_cases h0 : sec.2 = 0
  · simp [buildStep, h0]
  · simp only [buildStep, if_neg h0]
    have hpf := popFrames_flatOf st.1.length sec.2 st.1 st.2 (Nat.le_refl _)
    simp only [flatOf, stackFlat, flattenForest] at hpf ⊢
    rw [← List.append_assoc, hpf]

/-- Running the builder loop appends exactly the positive-level headings, in
input order, to the encoded pre-order list. -/
theorem buildFold_flatOf : ∀ (flat : List (String × Nat))
    (st : List Frame × List TocNode),
    flatOf (flat.foldl buildStep st)
      = flatOf st ++ (flat.filter (fun q => decide (q.2 ≠ 0))).map Prod.fst := by
  intro flat
  induction flat with
  | nil => intro st; simp
  | cons sec rest ih =>
    intro st
    rw [List.foldl_cons, ih (buildStep st sec), buildStep_flatOf]
    by_cases h0 : sec.2 = 0
    · simp [h0]
    · simp [h0, List.filter_cons]

/-- The pre-order heading list of the built forest is the positive-level
part of the flat input, in order. -/
theorem flattenForest_build (flat : List (String × Nat)) :
    flattenForest (build_nested_toc flat)
      = (flat.filter (fun q => decide (q.2 ≠ 0))).map Prod.fst := by
  have hst := buildFold_flatOf flat ([], [])
  set st := flat.foldl buildStep ([], []) with hdef
  have hzero := popFrames_zero_stack st.1.length st.1 st.2 (Nat.le_refl _)
  have hflat := popFrames_flatOf st.1.length 0 st.1 st.2 (Nat.le_refl _)
  have : flatOf (popFrames st.1.length 0 st.1 st.2) = flatOf st := by
    rw [Prod.mk.eta] at hflat
    exact hflat
  rw [show build_nested_toc flat = (popFrames st.1.length 0 st.1 st.2).2 from rfl]
  have hout : flattenForest (popFrames st.1.length 0 st.1 st.2).2
      = flatOf (popFrames st.1.length 0 st.1 st.2) := by
    cases hpq : popFrames st.1.length 0 st.1 st.2 with
    | mk p q =>
      have hp : p = [] := by rw [hpq] at hzero; exact hzero
      subst hp
      simp [flatOf, stackFlat]
  rw [hout, this, hst]
  simp [flatOf, stackFlat, flattenForest]

/-- C3: building the nested TOC forest from a flat ordered (heading, level)
list and then flattening it with the loader's pre-order traversal recovers
exactly the heading texts of the flat list with the level-0 (preamble)
entries removed, in their original order; the values collected by the
traversal are those heading strings.  (Proved for every flat list, with no
restriction of the levels to 1..6.) -/
theorem C3_roundtrip (flat : List (String × Nat)) :
    extractList (serializeForest (build_nested_toc flat))
      = ((flat.filter (fun q => decide (q.2 ≠ 0))).map Prod.fst).map Yaml.str := by
  rw [extract_serializeForest, flattenForest_build]
